import Mathlib

/-!
# Factor_Flow — verification of the Factor Analytics Engine

Shallow embedding of the core computations of the repository's backend:

* `calculate_zscores.py` — per-factor rolling 252-day Z-score state machine
  (`calculate_zscores_smart`, `upload_zscores`);
* `calculate_features.py` — trailing-return momentum features
  (`_safe_lookback` guard) and the benchmark regression
  (`linear_regression_slope_and_predictions`, beta / idiosyncratic vol);
* `calculate_factor_performance.py` — equal-weighted period returns
  (`calculate_period_return`, `calculate_all_factor_performance`);
* `stat_engine.py` — percentile rules and fractional percentile ranks
  (`run_statistical_engine`).

Modelling conventions:

* pandas floats are modelled by exact rationals `ℚ`; a float `NaN`
  ("undefined") is modelled by `Option ℚ` being `none`;
* a square root (`std = sqrt(var)`) lives in `ℝ` via `Real.sqrt`, so a
  Z-score value is a real number; all emission decisions are made on
  rationals and stay decidable;
* trading dates are modelled by their row index (`ℕ`, ascending);
* `np.log` of prices is not re-modelled: the regression component of
  `calculate_complex_features` consumes the per-date log-return series
  directly (values `Option ℚ`), which is the data the cited code operates on.
-/

set_option maxRecDepth 8000

namespace FactorFlow

/-! ## Basic statistics (pandas `mean`, `std(ddof=1)`, `np.std(ddof=0)`) -/

/-- Arithmetic mean of a list of rationals (`Series.mean` on defined values).
For the empty list this yields `0/0 = 0`; all uses are guarded. -/
def mean (xs : List ℚ) : ℚ := xs.sum / xs.length

/-- Sample variance with `ddof = 1` (pandas `Series.std()` squared).
For lists of length `< 2` the guard at each call site rejects the value
(pandas would produce `NaN`). -/
def sampleVar (xs : List ℚ) : ℚ :=
  (xs.map (fun x => (x - mean xs) ^ 2)).sum / ((xs.length : ℚ) - 1)

/-- Population variance with `ddof = 0` (`np.std` squared). -/
def popVar (xs : List ℚ) : ℚ :=
  (xs.map (fun x => (x - mean xs) ^ 2)).sum / (xs.length : ℚ)

/-! ## Z-score state machine (`calculate_zscores.py`)

A factor's 1-day performance history is a `Series`: one entry per
ascending `run_date`, `none` when `perf_1d` is null. -/

/-- A factor's `perf_1d` history ordered by ascending date. -/
abbrev Series := List (Option ℚ)

/-- The rolling window length, `ROLLING_WINDOW = 252`, from `calculate_zscores.py`. -/
def ROLLING_WINDOW : ℕ := 252

/-- The rolling window of (up to) 252 rows ending at row `t`
(pandas `rolling(window=252)` at position `t`). -/
def windowAt (xs : Series) (t : ℕ) : Series :=
  (xs.take (t + 1)).drop (t + 1 - ROLLING_WINDOW)

/-- The defined values inside the window ending at `t`. -/
def windowVals (xs : Series) (t : ℕ) : List ℚ := (windowAt xs t).reduceOption

/-- Predicate for `min_periods=252` at `t`: every row of the 252-row window is
defined (for a 252-row window, 252 non-NaN values means no NaN at all). -/
def windowFull (xs : Series) (t : ℕ) : Bool :=
  (windowAt xs t).all (·.isSome)

/-- Backfill mode emits a Z-score at row `t` iff the rolling mean/std are
defined there (full window) and the resulting value is neither `NaN` nor
`±inf` — i.e. the window's sample variance is nonzero
(`replace([np.inf, -np.inf], np.nan)` followed by `dropna`). -/
def backfillEmits (xs : Series) (t : ℕ) : Bool :=
  (decide (ROLLING_WINDOW - 1 ≤ t)) && (decide (t < xs.length)) &&
    windowFull xs t && (sampleVar (windowVals xs t) != 0)

/-- The row indices at which backfill mode emits a Z-score record. -/
def backfillIndices (xs : Series) : List ℕ :=
  (List.range xs.length).filter (fun t => backfillEmits xs t)

/-- One output record of `calculate_zscores_smart`
(`{factor_id, date, zscore, factor_value}`). -/
structure ZRecord where
  factorId : ℤ
  dateIdx : ℕ
  zscore : ℝ
  factorValue : Option ℚ

/-- The value `(current - rolling_mean) / rolling_std` where `rolling_std` is the
square root of the sample variance of the window values. -/
noncomputable def zscoreAt (w : List ℚ) (x : ℚ) : ℝ :=
  ((x - mean w : ℚ) : ℝ) / Real.sqrt (sampleVar w)

/-- The record backfill mode builds for row `t`
(`factor_value` is today's `perf_1d`, null when missing). -/
noncomputable def backfillRecord (fid : ℤ) (xs : Series) (t : ℕ) : ZRecord :=
  { factorId := fid
    dateIdx := t
    zscore := zscoreAt (windowVals xs t) ((xs.getD t none).getD 0)
    factorValue := xs.getD t none }

/-- All records emitted by the backfill branch of `calculate_zscores_smart`. -/
noncomputable def backfillRecords (fid : ℤ) (xs : Series) : List ZRecord :=
  (backfillIndices xs).map (backfillRecord fid xs)

/-- The tail `factor_df.tail(ROLLING_WINDOW)`: the most recent 252 rows. -/
def recentWindow (xs : Series) : Series := xs.drop (xs.length - ROLLING_WINDOW)

/-- Defined values among the most recent 252 rows (pandas `mean`/`std`
skip NaN). -/
def recentVals (xs : Series) : List ℚ := (recentWindow xs).reduceOption

/-- pandas `Series.std() > 0` for the defined values: the sample standard
deviation exists (at least two observations, else `NaN > 0` is false) and
is strictly positive. -/
def sampleStdPos (xs : List ℚ) : Bool :=
  (decide (2 ≤ xs.length)) && (decide (0 < sampleVar xs))

/-- The daily (steady-state) branch emits iff `rolling_std > 0` and today's
`perf_1d` is defined (`pd.notna(today_value)`). -/
def dailyEmits (xs : Series) : Bool :=
  sampleStdPos (recentVals xs) && ((recentWindow xs).getLast?.join).isSome

/-- The (at most one) record emitted by the daily branch: today's row is the
last row, its date index is `xs.length - 1`. -/
noncomputable def dailyRecords (fid : ℤ) (xs : Series) : List ZRecord :=
  if dailyEmits xs then
    [{ factorId := fid
       dateIdx := xs.length - 1
       zscore := zscoreAt (recentVals xs) (((recentWindow xs).getLast?.join).getD 0)
       factorValue := (recentWindow xs).getLast?.join }]
  else []

/-- Per-factor mode of `calculate_zscores_smart`. -/
inductive ZMode | skip | backfill | daily
deriving DecidableEq, BEq

/-- The mode decision: skip when fewer than 252 performance rows exist,
backfill when the persisted Z-score count is below 252, daily otherwise. -/
def modeOf (perfLen zcount : ℕ) : ZMode :=
  if perfLen < ROLLING_WINDOW then .skip
  else if zcount < ROLLING_WINDOW then .backfill
  else .daily

/-- Records produced for one factor, given its series and persisted count. -/
noncomputable def perFactorRecords (counts : ℤ → ℕ) (p : ℤ × Series) : List ZRecord :=
  match modeOf p.2.length (counts p.1) with
  | .skip => []
  | .backfill => backfillRecords p.1 p.2
  | .daily => dailyRecords p.1 p.2

/-- The `backfilled_factors` list returned by `calculate_zscores_smart`. -/
def backfilledFactors (counts : ℤ → ℕ) (l : List (ℤ × Series)) : List ℤ :=
  (l.filter (fun p => modeOf p.2.length (counts p.1) == ZMode.backfill)).map (·.1)

/-- Embedding of `calculate_zscores_smart`: per-factor records concatenated in factor
order, together with the list of backfilled factors. -/
noncomputable def calculateZscoresSmart (counts : ℤ → ℕ) (l : List (ℤ × Series)) :
    List ZRecord × List ℤ :=
  ((l.map (perFactorRecords counts)).flatten, backfilledFactors counts l)

/-! ## Upload (`upload_zscores`)

The persisted `factor_zscore_history` table is modelled as a list of
records keyed by `(factorId, dateIdx)`. -/

/-- A persisted record is hit by the daily-update delete loop iff its date
is among the daily records' dates AND its factor among the daily records'
factors (the source iterates `for date in unique_dates: for fid in
factor_ids: delete`, i.e. the full cross product). -/
def keyMatches (dates : List ℕ) (fids : List ℤ) (r : ZRecord) : Bool :=
  dates.contains r.dateIdx && fids.contains r.factorId

/-- Embedding of `upload_zscores`: delete the whole history of every backfilled factor,
delete every (daily date, daily factor) cross-product combination, then
insert all new records. -/
def upload (db recs : List ZRecord) (backfilled : List ℤ) : List ZRecord :=
  let db1 := db.filter (fun r => !(backfilled.contains r.factorId))
  let daily := recs.filter (fun r => !(backfilled.contains r.factorId))
  let db2 := db1.filter
    (fun r => !(keyMatches (daily.map (·.dateIdx)) (daily.map (·.factorId)) r))
  db2 ++ recs

/-! ## Feature engine (`calculate_features.py`)

A price panel column is the close-price series of one ticker over the
panel's rows (ascending dates); `none` marks a missing price. -/

/-- Embedding of `_safe_lookback`: `False` (feature undefined for all tickers) when the
panel has at most `lookback` rows. -/
def safeLookback (seriesLength lookback : ℕ) : Bool :=
  !(decide (seriesLength ≤ lookback))

/-- One trailing-return feature for one ticker:
`price_matrix.iloc[-1] / price_matrix.iloc[-lookback] - 1`, guarded by
`_safe_lookback`. Row `-1` is index `nRows - 1`; row `-lookback` is index
`nRows - lookback`. `none` models NaN (guard failed or a price missing). -/
def momentumFeature (nRows : ℕ) (col : List (Option ℚ)) (lookback : ℕ) : Option ℚ :=
  if safeLookback nRows lookback then
    match col.getD (nRows - 1) none, col.getD (nRows - lookback) none with
    | some pLast, some pPrev => some (pLast / pPrev - 1)
    | _, _ => none
  else none

/-- The per-ticker trailing-return column of the feature table for one
horizon, over a panel given as (ticker, column) pairs. -/
def momentumFeatures (nRows : ℕ) (cols : List (String × List (Option ℚ)))
    (lookback : ℕ) : List (String × Option ℚ) :=
  cols.map (fun c => (c.1, momentumFeature nRows c.2 lookback))

/-! ### Benchmark regression (beta / idiosyncratic volatility)

The regression consumes the per-date log-return series of the benchmark
(`market`) and of one ticker (`stock`); `none` marks a date where the
return is undefined. `common_dates` is the intersection of the dates where
both are defined. -/

/-- The aligned `(x, y)` sample: dates where both the market and the stock
log return are defined. -/
def alignedPairs (market stock : List (Option ℚ)) : List (ℚ × ℚ) :=
  (market.zip stock).filterMap (fun p =>
    match p.1, p.2 with
    | some a, some b => some (a, b)
    | _, _ => none)

/-- Sum of the x coordinates. -/
def sumX (l : List (ℚ × ℚ)) : ℚ := (l.map (·.1)).sum

/-- Sum of the y coordinates. -/
def sumY (l : List (ℚ × ℚ)) : ℚ := (l.map (·.2)).sum

/-- Sum of x². -/
def sumXX (l : List (ℚ × ℚ)) : ℚ := (l.map (fun p => p.1 * p.1)).sum

/-- Sum of x·y. -/
def sumXY (l : List (ℚ × ℚ)) : ℚ := (l.map (fun p => p.1 * p.2)).sum

/-- Centred second moment of x (`n · Var(x)`). -/
def Sxx (l : List (ℚ × ℚ)) : ℚ := sumXX l - sumX l * sumX l / l.length

/-- Centred cross moment (`n · Cov(x, y)`). -/
def Sxy (l : List (ℚ × ℚ)) : ℚ := sumXY l - sumX l * sumY l / l.length

/-- The OLS slope returned by `linear_regression_slope_and_predictions`
(`np.linalg.lstsq` on `[1, x]`): `coeffs[1] = Sxy / Sxx`. -/
def olsSlope (l : List (ℚ × ℚ)) : ℚ := Sxy l / Sxx l

/-- The OLS intercept (`coeffs[0]`). -/
def olsIntercept (l : List (ℚ × ℚ)) : ℚ := (sumY l - olsSlope l * sumX l) / l.length

/-- The residuals `Y - predictions`. -/
def olsResiduals (l : List (ℚ × ℚ)) : List ℚ :=
  l.map (fun p => p.2 - (olsIntercept l + olsSlope l * p.1))

/-- Sum of squared residuals of the affine fit `y ≈ a + b·x`. -/
def ssr (l : List (ℚ × ℚ)) (a b : ℚ) : ℚ :=
  (l.map (fun p => (p.2 - (a + b * p.1)) ^ 2)).sum

/-- Minimum overlapping observations for the regression. -/
def MIN_OVERLAP : ℕ := 200

/-- The `beta` feature for one ticker: `NaN` when the market has fewer than
200 defined returns (outer guard) or the overlap is below 200, the fitted
slope otherwise. -/
def betaFeature (market stock : List (Option ℚ)) : Option ℚ :=
  if market.reduceOption.length < MIN_OVERLAP then none
  else
    let l := alignedPairs market stock
    if l.length < MIN_OVERLAP then none else some (olsSlope l)

/-- The `idiosyncratic_vol` feature for one ticker:
`np.std(residuals) * np.sqrt(252)` under the same guards. -/
noncomputable def idioVolFeature (market stock : List (Option ℚ)) : Option ℝ :=
  if market.reduceOption.length < MIN_OVERLAP then none
  else
    let l := alignedPairs market stock
    if l.length < MIN_OVERLAP then none
    else some (Real.sqrt ((popVar (olsResiduals l) : ℚ)) * Real.sqrt 252)

/-! ## Performance aggregator (`calculate_factor_performance.py`) -/

/-- The dense price panel: a row count and one close-price column per
ticker (each column has one entry per row, `none` = missing price). -/
structure Panel where
  nRows : ℕ
  cols : List (String × List (Option ℚ))

/-- The `PERIODS` table from `calculate_factor_performance.py`. -/
def PERIODS : List (String × ℕ) :=
  [("perf_1d", 1), ("perf_5d", 5), ("perf_1m", 21),
   ("perf_3m", 63), ("perf_6m", 126), ("perf_1y", 252)]

/-- The individual simple return of one ticker over `days` trading days:
`iloc[-1] / iloc[-days - 1] - 1`, `none` when the ticker is missing from
the panel or either price is missing. -/
def tickerReturn (panel : Panel) (t : String) (days : ℕ) : Option ℚ :=
  match panel.cols.lookup t with
  | none => none
  | some col =>
    match col.getD (panel.nRows - 1) none, col.getD (panel.nRows - days - 1) none with
    | some e, some s => some (e / s - 1)
    | _, _ => none

/-- Embedding of `calculate_period_return`: `NaN` when the panel has at most `days`
rows, or when no membership ticker is a panel column, or when every
individual return is `NaN`; otherwise the mean of the defined individual
returns of the membership tickers present in the panel. -/
def calculatePeriodReturn (panel : Panel) (tickers : List String) (days : ℕ) : Option ℚ :=
  if panel.nRows ≤ days then none
  else
    let valid := tickers.filter (fun t => (panel.cols.lookup t).isSome)
    if valid.isEmpty then none
    else
      let rets := valid.filterMap (fun t => tickerReturn panel t days)
      if rets.isEmpty then none else some (mean rets)

/-- One row of the factor-performance output. -/
structure PerfRecord where
  factorId : ℤ
  numHoldings : ℕ
  perfs : List (String × Option ℚ)
deriving DecidableEq

/-- Embedding of `calculate_all_factor_performance`: one record per factor;
`num_holdings` is the size of the full (deduplicated) membership,
regardless of which tickers the panel actually has. -/
def calculateAllFactorPerformance (panel : Panel) (holdings : List (ℤ × List String)) :
    List PerfRecord :=
  holdings.map (fun h =>
    { factorId := h.1
      numHoldings := h.2.length
      perfs := PERIODS.map (fun pd => (pd.1, calculatePeriodReturn panel h.2 pd.2)) })

/-! ## Statistical rule engine (`stat_engine.py`) -/

/-- A feature-table column: per ticker, the metric value or `NaN`. -/
abbrev MetricCol := List (String × Option ℚ)

/-- The surviving series `df_features[metric].dropna()`. -/
def dropna (col : MetricCol) : List (String × ℚ) :=
  col.filterMap (fun p => p.2.map (fun v => (p.1, v)))

/-- pandas `Series.quantile(p)` with linear interpolation over the sorted
values: position `k = p·(n-1)`, result
`s[⌊k⌋] + (k - ⌊k⌋)·(s[⌊k⌋+1] - s[⌊k⌋])`. -/
def quantile (vals : List ℚ) (p : ℚ) : ℚ :=
  let s := vals.insertionSort (· ≤ ·)
  let k : ℚ := p * ((s.length : ℚ) - 1)
  let i : ℕ := (⌊k⌋).toNat
  let y0 := s.getD i 0
  let y1 := s.getD (i + 1) y0
  y0 + (k - (i : ℚ)) * (y1 - y0)

/-- The five rule variants of `logic_config['rule']`. -/
inductive Rule
  | top_percentile
  | bottom_percentile
  | greater_than
  | less_than
  | equals
deriving DecidableEq

/-- Rule `top_percentile`: cutoff is the `1 - threshold` quantile of the
surviving values; matches are the entries with value `≥` cutoff. -/
def topPercentileMatches (threshold : ℚ) (series : List (String × ℚ)) :
    List (String × ℚ) :=
  let cutoff := quantile (series.map (·.2)) (1 - threshold)
  series.filter (fun p => decide (cutoff ≤ p.2))

/-- Rule `bottom_percentile`: cutoff is the `threshold` quantile; matches are
the entries with value `≤` cutoff. -/
def bottomPercentileMatches (threshold : ℚ) (series : List (String × ℚ)) :
    List (String × ℚ) :=
  let cutoff := quantile (series.map (·.2)) threshold
  series.filter (fun p => decide (p.2 ≤ cutoff))

/-- The matched sub-series for a rule over the surviving (post-dropna)
series: `top_percentile p` keeps values `≥` the `1 - p` quantile,
`bottom_percentile p` keeps values `≤` the `p` quantile, the direct rules
compare against the threshold. -/
def applyRule (rule : Rule) (threshold : ℚ) (series : List (String × ℚ)) :
    List (String × ℚ) :=
  match rule with
  | .top_percentile => topPercentileMatches threshold series
  | .bottom_percentile => bottomPercentileMatches threshold series
  | .greater_than => series.filter (fun p => decide (threshold < p.2))
  | .less_than => series.filter (fun p => decide (p.2 < threshold))
  | .equals => series.filter (fun p => decide (p.2 = threshold))

/-- Count of values strictly below `v`. -/
def countLt (vals : List ℚ) (v : ℚ) : ℕ := (vals.filter (fun x => decide (x < v))).length

/-- Count of values equal to `v`. -/
def countEq (vals : List ℚ) (v : ℚ) : ℕ := (vals.filter (fun x => decide (x = v))).length

/-- pandas `Series.rank(pct=True)` with the default `average` method: ties
share the average of their ordinal ranks, expressed as a fraction of the
series length. -/
def fracRank (vals : List ℚ) (v : ℚ) : ℚ :=
  ((countLt vals v : ℚ) + ((countEq vals v : ℚ) + 1) / 2) / vals.length

/-- One uploaded row of `factor_results_statistical`. -/
structure StatResult where
  ticker : String
  metricValue : ℚ
  percentileRank : ℚ
deriving DecidableEq

/-- The matches and percentile ranks `run_statistical_engine` uploads for
one factor: the rule is applied to the post-dropna series, and each match's
rank is computed over the full surviving series (`series.rank(pct=True)`),
not just the matched subset. -/
def statResults (rule : Rule) (threshold : ℚ) (col : MetricCol) : List StatResult :=
  let series := dropna col
  (applyRule rule threshold series).map (fun p =>
    { ticker := p.1
      metricValue := p.2
      percentileRank := fracRank (series.map (·.2)) p.2 })

/-! ## Concrete inputs used by the scenarios, counterexamples and witnesses -/

/-- A performance series of `m` defined days of value `a` followed by one
defined day of value `b`: the flat-history-with-final-spike shape of
the spec's concrete Z-score scenario. -/
def spikeSeries (a b : ℚ) (m : ℕ) : Series := List.replicate m (some a) ++ [some b]

/-- The spec's concrete scenario: 260 days of `perf_1d = 0.01` except day
260 (index 259) at `0.05`. -/
def c1Series : Series := spikeSeries (1/100) (5/100) 259

/-- A series of 253 rows with one null `perf_1d` inside the trailing 252-row window:
`[0.01, null]` followed by 250 days at `0` and a final day at `1`.
There are 252 defined observations in total. -/
def c2Series : Series := some (1/100) :: none :: spikeSeries 0 1 250

/-- A minimal steady-state-ready series: 251 days at `0`, then one day at
`1` (252 rows, all defined, positive variance). -/
def s252 : Series := spikeSeries 0 1 251

/-- A 22-row price column with prices `1, 2, ..., 22`. -/
def c3Col : List (Option ℚ) := (List.range 22).map (fun i : ℕ => some ((i : ℚ) + 1))

/-- The C4 scenario panel: two rows, tickers `A` and `B` (no `C`). -/
def c4Panel : Panel :=
  { nRows := 2
    cols := [("A", [some 100, some 110]), ("B", [some 200, some 190])] }

/-- A log-return column with 100 days at `0` then 100 days at `1`
(200 defined observations, nonzero x-variance). -/
def c7Col : List (Option ℚ) :=
  (List.replicate 100 (0 : ℚ) ++ List.replicate 100 1).map some

/-- Persisted Z-score store before the C5 failing run: factor 1 has one
record at date 0. -/
def c5db : List ZRecord := [{ factorId := 1, dateIdx := 0, zscore := 0, factorValue := none }]

/-- The C5 failing run's daily updates: factor 1's latest date is 1,
factor 2's latest date is 0 (heterogeneous latest dates, no backfills). -/
def c5recs : List ZRecord :=
  [{ factorId := 1, dateIdx := 1, zscore := 0, factorValue := none },
   { factorId := 2, dateIdx := 0, zscore := 0, factorValue := none }]

/-- Persisted Z-score counts for the C6 mixed-mode run: factor 1 already
has 300 Z-score records, every other factor has none. -/
def c6counts : ℤ → ℕ := fun fid => if fid = 1 then 300 else 0

/-- A two-ticker metric column for the rank witness. -/
def c9col : MetricCol := [("A", some 1), ("B", some 2)]

/-- A four-ticker surviving universe with a tie (values 1, 1, 5, 9) whose
tie does not span the 0.10/0.90 cutoffs. -/
def c8series : List (String × ℚ) := [("A", 1), ("B", 1), ("C", 5), ("D", 9)]

/-- The expected uploaded row for ticker `B` of `c9col` under
`greater_than 0`. -/
def c9row : StatResult := { ticker := "B", metricValue := 2, percentileRank := fracRank [1, 2] 2 }

/-! ## Statistics lemmas -/

theorem sampleVar_nonneg (xs : List ℚ) (h : 2 ≤ xs.length) : 0 ≤ sampleVar xs := by
  unfold sampleVar
  apply div_nonneg
  · apply List.sum_nonneg
    intro x hx
    obtain ⟨y, _, rfl⟩ := List.mem_map.mp hx
    positivity
  · have : (2 : ℚ) ≤ (xs.length : ℚ) := by exact_mod_cast h
    linarith

theorem mean_replicate {n : ℕ} (hn : n ≠ 0) (a : ℚ) : mean (List.replicate n a) = a := by
  have h : ((n : ℚ)) ≠ 0 := Nat.cast_ne_zero.mpr hn
  simp only [mean, List.sum_replicate, List.length_replicate, nsmul_eq_mul]
  field_simp

theorem sampleVar_replicate (n : ℕ) (a : ℚ) : sampleVar (List.replicate n a) = 0 := by
  rcases Nat.eq_zero_or_pos n with h | h
  · subst h; simp [sampleVar, mean]
  · unfold sampleVar
    rw [List.map_replicate, mean_replicate (Nat.pos_iff_ne_zero.mp h)]
    simp

theorem two_le_length_of_mem_ne {xs : List ℚ} {a b : ℚ} (ha : a ∈ xs) (hb : b ∈ xs)
    (hab : a ≠ b) : 2 ≤ xs.length := by
  have hb' : b ∈ xs.erase a := List.mem_erase_of_ne (fun h => hab h.symm) |>.mpr hb
  have h1 : 1 ≤ (xs.erase a).length := List.length_pos_of_mem hb'
  have h2 : (xs.erase a).length = xs.length - 1 := List.length_erase_of_mem ha
  omega

theorem sampleVar_pos_of_mem_ne {xs : List ℚ} {a b : ℚ} (ha : a ∈ xs) (hb : b ∈ xs)
    (hab : a ≠ b) : 0 < sampleVar xs := by
  have h2 : 2 ≤ xs.length := two_le_length_of_mem_ne ha hb hab
  unfold sampleVar
  apply div_pos
  · have hnn : ∀ x ∈ xs.map (fun x => (x - mean xs) ^ 2), 0 ≤ x := by
      intro x hx
      obtain ⟨y, _, rfl⟩ := List.mem_map.mp hx
      positivity
    have key : ∃ c ∈ xs, c ≠ mean xs := by
      by_cases hA : a = mean xs
      · exact ⟨b, hb, fun hB => hab (hA.trans hB.symm)⟩
      · exact ⟨a, ha, hA⟩
    obtain ⟨c, hc, hcne⟩ := key
    have hmem : (c - mean xs) ^ 2 ∈ xs.map (fun x => (x - mean xs) ^ 2) :=
      List.mem_map.mpr ⟨c, hc, rfl⟩
    have hpos : 0 < (c - mean xs) ^ 2 := by
      have : c - mean xs ≠ 0 := sub_ne_zero.mpr hcne
      positivity
    calc (0 : ℚ) < (c - mean xs) ^ 2 := hpos
      _ ≤ (xs.map (fun x => (x - mean xs) ^ 2)).sum := List.single_le_sum hnn _ hmem
  · have : (2 : ℚ) ≤ (xs.length : ℚ) := by exact_mod_cast h2
    linarith

theorem mean_lt_of_forall_le_of_mem_lt {xs : List ℚ} {c : ℚ} (hne : xs ≠ [])
    (hle : ∀ x ∈ xs, x ≤ c) (hlt : ∃ x ∈ xs, x < c) : mean xs < c := by
  have hn : 0 < (xs.length : ℚ) := by
    exact_mod_cast List.length_pos.mpr hne
  have hsum : xs.sum < (xs.length : ℚ) * c := by
    have h := List.sum_lt_sum (f := fun x : ℚ => x) (g := fun _ : ℚ => c) hle hlt
    simpa [List.sum_replicate, nsmul_eq_mul, List.map_const] using h
  rw [mean, div_lt_iff₀ hn]
  linarith [hsum]

/-! ## Series and window lemmas -/

theorem reduceOption_replicate_some (n : ℕ) (a : ℚ) :
    (List.replicate n (some a)).reduceOption = List.replicate n a := by
  induction n with
  | zero => rfl
  | succ k ih => simp [List.replicate_succ, List.reduceOption_cons_of_some, ih]

theorem spikeSeries_length (a b : ℚ) (m : ℕ) : (spikeSeries a b m).length = m + 1 := by
  simp [spikeSeries]

theorem spikeSeries_vals_mem_left {a b : ℚ} {m : ℕ} (hm : m ≠ 0) :
    a ∈ List.replicate m a ++ [b] :=
  List.mem_append_left _ (List.mem_replicate.mpr ⟨hm, rfl⟩)

theorem spikeSeries_vals_mem_right (a b : ℚ) (m : ℕ) :
    b ∈ List.replicate m a ++ [b] :=
  List.mem_append_right _ (List.mem_singleton.mpr rfl)

theorem windowAt_spike_mid {a b : ℚ} {m t : ℕ} (h1 : 251 ≤ t) (h2 : t < m) :
    windowAt (spikeSeries a b m) t = List.replicate 252 (some a) := by
  have hlen : t + 1 ≤ (List.replicate m (some a)).length := by
    simp only [List.length_replicate]; omega
  rw [windowAt, spikeSeries, List.take_append_of_le_length hlen, List.take_replicate,
    List.drop_replicate]
  have h3 : min (t + 1) m = t + 1 := by omega
  have h4 : t + 1 - (t + 1 - ROLLING_WINDOW) = 252 := by
    simp only [ROLLING_WINDOW]; omega
  rw [h3, h4]

theorem windowAt_spike_last {a b : ℚ} {m : ℕ} (hm : 251 ≤ m) :
    windowAt (spikeSeries a b m) m = List.replicate 251 (some a) ++ [some b] := by
  have hlen : (spikeSeries a b m).length ≤ m + 1 := by
    rw [spikeSeries_length]
  rw [windowAt, List.take_of_length_le hlen, spikeSeries,
    List.drop_append_of_le_length (by simp only [List.length_replicate, ROLLING_WINDOW]; omega),
    List.drop_replicate]
  have h4 : m - (m + 1 - ROLLING_WINDOW) = 251 := by
    simp only [ROLLING_WINDOW]; omega
  rw [h4]

theorem recentWindow_eq_windowAt_last {xs : Series} (h : xs ≠ []) :
    recentWindow xs = windowAt xs (xs.length - 1) := by
  have hp : 0 < xs.length := List.length_pos.mpr h
  rw [recentWindow, windowAt]
  have h1 : xs.length - 1 + 1 = xs.length := by omega
  rw [h1, List.take_length]

theorem recentWindow_spike {a b : ℚ} {m : ℕ} (hm : 251 ≤ m) :
    recentWindow (spikeSeries a b m) = List.replicate 251 (some a) ++ [some b] := by
  have hne : spikeSeries a b m ≠ [] := by
    intro h
    have := spikeSeries_length a b m
    rw [h] at this
    simp at this
  rw [recentWindow_eq_windowAt_last hne, spikeSeries_length]
  have h1 : m + 1 - 1 = m := by omega
  rw [h1, windowAt_spike_last hm]

theorem windowVals_spike_mid {a b : ℚ} {m t : ℕ} (h1 : 251 ≤ t) (h2 : t < m) :
    windowVals (spikeSeries a b m) t = List.replicate 252 a := by
  rw [windowVals, windowAt_spike_mid h1 h2, reduceOption_replicate_some]

theorem windowVals_spike_last {a b : ℚ} {m : ℕ} (hm : 251 ≤ m) :
    windowVals (spikeSeries a b m) m = List.replicate 251 a ++ [b] := by
  rw [windowVals, windowAt_spike_last hm, List.reduceOption_append,
    reduceOption_replicate_some]
  rfl

theorem recentVals_spike {a b : ℚ} {m : ℕ} (hm : 251 ≤ m) :
    recentVals (spikeSeries a b m) = List.replicate 251 a ++ [b] := by
  rw [recentVals, recentWindow_spike hm, List.reduceOption_append,
    reduceOption_replicate_some]
  rfl

theorem backfillEmits_of_lt {xs : Series} {t : ℕ} (h : t < 251) :
    backfillEmits xs t = false := by
  have h1 : ¬ (ROLLING_WINDOW - 1 ≤ t) := by
    simp only [ROLLING_WINDOW]; omega
  simp [backfillEmits, h1]

theorem backfillEmits_spike_mid {a b : ℚ} {m t : ℕ} (h1 : 251 ≤ t) (h2 : t < m) :
    backfillEmits (spikeSeries a b m) t = false := by
  rw [backfillEmits, windowVals_spike_mid h1 h2, sampleVar_replicate]
  simp

theorem spikeVar_pos {a b : ℚ} (hab : a ≠ b) {m : ℕ} (hm : m ≠ 0) :
    0 < sampleVar (List.replicate m a ++ [b]) :=
  sampleVar_pos_of_mem_ne (spikeSeries_vals_mem_left hm)
    (spikeSeries_vals_mem_right a b m) hab

theorem backfillEmits_spike_last {a b : ℚ} {m : ℕ} (hm : 251 ≤ m) (hab : a ≠ b) :
    backfillEmits (spikeSeries a b m) m = true := by
  have hv : sampleVar (List.replicate 251 a ++ [b]) ≠ 0 :=
    ne_of_gt (spikeVar_pos hab (by omega))
  have h1 : ROLLING_WINDOW - 1 ≤ m := by simp only [ROLLING_WINDOW]; omega
  have h2 : m < (spikeSeries a b m).length := by rw [spikeSeries_length]; omega
  have h3 : windowFull (spikeSeries a b m) m = true := by
    rw [windowFull, windowAt_spike_last hm, List.all_append, List.all_replicate]
    simp
  rw [backfillEmits, windowVals_spike_last hm, h3]
  rw [decide_eq_true h1, decide_eq_true h2]
  simp only [Bool.true_and, Bool.and_true]
  exact bne_iff_ne.mpr hv

theorem backfillIndices_spike {a b : ℚ} {m : ℕ} (hm : 251 ≤ m) (hab : a ≠ b) :
    backfillIndices (spikeSeries a b m) = [m] := by
  rw [backfillIndices, spikeSeries_length, List.range_succ, List.filter_append]
  have h1 : (List.range m).filter (fun t => backfillEmits (spikeSeries a b m) t) = [] := by
    apply List.filter_eq_nil_iff.mpr
    intro t ht
    have htm : t < m := List.mem_range.mp ht
    rcases lt_or_ge t 251 with h | h
    · simp [backfillEmits_of_lt h]
    · simp [backfillEmits_spike_mid h htm]
  rw [h1, List.filter_singleton]
  simp [backfillEmits_spike_last hm hab]

theorem dailyEmits_spike {a b : ℚ} {m : ℕ} (hm : 251 ≤ m) (hab : a ≠ b) :
    dailyEmits (spikeSeries a b m) = true := by
  have hv : 0 < sampleVar (List.replicate 251 a ++ [b]) := spikeVar_pos hab (by omega)
  have hlast : (recentWindow (spikeSeries a b m)).getLast? = some (some b) := by
    rw [recentWindow_spike hm, List.getLast?_concat]
  have hlen : 2 ≤ (List.replicate 251 a ++ [b]).length := by
    simp only [List.length_append, List.length_replicate]
    omega
  rw [dailyEmits, sampleStdPos, recentVals_spike hm, hlast]
  rw [decide_eq_true hlen, decide_eq_true hv]
  rfl

theorem spike_getD_last {a b : ℚ} (m : ℕ) :
    (spikeSeries a b m).getD m none = some b := by
  rw [spikeSeries, List.getD_eq_getElem?_getD,
    List.getElem?_append_right (by simp)]
  simp

theorem reduceOption_length_of_all_isSome {l : List (Option ℚ)}
    (h : l.all (·.isSome) = true) : l.reduceOption.length = l.length := by
  induction l with
  | nil => rfl
  | cons a l ih =>
    rw [List.all_cons, Bool.and_eq_true] at h
    obtain ⟨v, rfl⟩ := Option.isSome_iff_exists.mp h.1
    rw [List.reduceOption_cons_of_some]
    simp [ih h.2]

theorem recentWindow_length {xs : Series} (h : 252 ≤ xs.length) :
    (recentWindow xs).length = 252 := by
  rw [recentWindow, List.length_drop]
  simp only [ROLLING_WINDOW]
  omega

theorem recentWindow_getLast {xs : Series} (h : 252 ≤ xs.length) :
    (recentWindow xs).getLast? = xs[xs.length - 1]? := by
  rw [List.getLast?_eq_getElem?, recentWindow, List.getElem?_drop, List.length_drop]
  congr 1
  simp only [ROLLING_WINDOW]
  omega

/-! ## C1: the spec's concrete 260-day scenario -/

/-- C1, counterexample:  On the spec's concrete series (260 days at
`0.01` with day 260 at `0.05`), every backfill window ending on a day
before day 260 is constant, so its rolling standard deviation is `0` and
the Z-score is dropped: the backfill branch emits exactly one record (for
day 260, index 259), not the nine records (days 252–260) the claim
states.  In particular no record exists for day 252 (index 251). -/
theorem c1_backfill_emits_one_record_not_nine :
    backfillIndices c1Series = [259] ∧
    (backfillRecords 1 c1Series).length ≠ 9 ∧
    251 ∉ backfillIndices c1Series := by
  have hab : (1 / 100 : ℚ) ≠ 5 / 100 := by norm_num
  have h : backfillIndices c1Series = [259] := by
    rw [c1Series]
    exact backfillIndices_spike (by omega) hab
  refine ⟨h, ?_, ?_⟩
  · rw [backfillRecords, h]
    simp
  · rw [h]
    simp

/-- C1, amended:  On the spec's concrete series, the steady-state
branch emits exactly one record, for day 260 (index 259), with a strictly
positive Z-score; the backfill branch emits exactly the same single
record (day 260, equal Z-score) rather than records for days 252–260. -/
theorem c1_steady_state_one_positive_record :
    ∃ z : ℝ, 0 < z ∧
      dailyRecords 1 c1Series =
        [{ factorId := 1, dateIdx := 259, zscore := z, factorValue := some (5 / 100) }] ∧
      backfillRecords 1 c1Series =
        [{ factorId := 1, dateIdx := 259, zscore := z, factorValue := some (5 / 100) }] := by
  have hab : (1 / 100 : ℚ) ≠ 5 / 100 := by norm_num
  have hm : (251 : ℕ) ≤ 259 := by omega
  refine ⟨zscoreAt (List.replicate 251 (1 / 100 : ℚ) ++ [5 / 100]) (5 / 100), ?_, ?_, ?_⟩
  · have hlt : mean (List.replicate 251 (1 / 100 : ℚ) ++ [5 / 100]) < 5 / 100 := by
      apply mean_lt_of_forall_le_of_mem_lt
      · have hp : 0 < (List.replicate 251 (1 / 100 : ℚ) ++ [5 / 100]).length := by
          rw [List.length_append, List.length_replicate]
          norm_num
        exact List.ne_nil_of_length_pos hp
      · intro x hx
        rcases List.mem_append.mp hx with h | h
        · rw [(List.mem_replicate.mp h).2]
          norm_num
        · rw [List.mem_singleton.mp h]
      · exact ⟨1 / 100, spikeSeries_vals_mem_left (by omega), by norm_num⟩
    have hv : (0 : ℚ) < sampleVar (List.replicate 251 (1 / 100 : ℚ) ++ [5 / 100]) :=
      spikeVar_pos hab (by omega)
    rw [zscoreAt]
    apply div_pos
    · exact_mod_cast sub_pos.mpr hlt
    · exact Real.sqrt_pos.mpr (by exact_mod_cast hv)
  · have hde : dailyEmits c1Series = true := by
      rw [c1Series]; exact dailyEmits_spike hm hab
    have hlast : (recentWindow c1Series).getLast? = some (some (5 / 100)) := by
      rw [c1Series, recentWindow_spike hm, List.getLast?_concat]
    have hrv : recentVals c1Series = List.replicate 251 (1 / 100 : ℚ) ++ [5 / 100] := by
      rw [c1Series]; exact recentVals_spike hm
    rw [dailyRecords, if_pos hde, hlast, hrv]
    rfl
  · have hbi : backfillIndices c1Series = [259] := by
      rw [c1Series]; exact backfillIndices_spike hm hab
    have hwv : windowVals c1Series 259 = List.replicate 251 (1 / 100 : ℚ) ++ [5 / 100] := by
      rw [c1Series]; exact windowVals_spike_last hm
    have hgd : c1Series.getD 259 none = some (5 / 100) := by
      rw [c1Series]; exact spike_getD_last 259
    rw [backfillRecords, hbi, List.map_singleton, backfillRecord, hwv, hgd]
    rfl

/-! ## C2: steady state versus backfill at the boundary -/

/-- C2, counterexample:  On `c2Series` (253 rows, one null `perf_1d`
inside the trailing 252-row window, 252 defined observations in total) the
steady-state branch emits a Z-score for the last day (index 252, computed
over the 251 defined values with skip-NaN mean/std), while the backfill
branch — whose full-window requirement fails on the NaN — computes no
Z-score for that day (indeed emits none at all): the steady-state value
cannot equal the zscore the backfill branch would compute for day T. -/
theorem c2_steady_state_without_backfill_record :
    dailyEmits c2Series = true ∧
    (dailyRecords 1 c2Series).length = 1 ∧
    (∀ r ∈ dailyRecords 1 c2Series, r.dateIdx = 252) ∧
    backfillEmits c2Series 252 = false ∧
    backfillIndices c2Series = [] := by
  have hlen : c2Series.length = 253 := by
    rw [c2Series]
    simp only [List.length_cons, spikeSeries_length]
  have hrw : recentWindow c2Series = (none :: List.replicate 250 (some (0 : ℚ))) ++ [some 1] := by
    rw [recentWindow, hlen, c2Series]
    norm_num [ROLLING_WINDOW]
    rfl
  have hde : dailyEmits c2Series = true := by
    have hrv : recentVals c2Series = (none :: List.replicate 250 (some (0 : ℚ))
        ++ [some 1]).reduceOption := by
      rw [recentVals, hrw]
    have hrv2 : recentVals c2Series = List.replicate 250 (0 : ℚ) ++ [1] := by
      rw [hrv, List.reduceOption_append, List.reduceOption_cons_of_none,
        reduceOption_replicate_some]
      rfl
    have hv : (0 : ℚ) < sampleVar (List.replicate 250 (0 : ℚ) ++ [1]) :=
      spikeVar_pos (by norm_num) (by omega)
    have hl2 : 2 ≤ (recentVals c2Series).length := by
      rw [hrv2]
      simp only [List.length_append, List.length_replicate]
      omega
    have hlast : (recentWindow c2Series).getLast? = some (some 1) := by
      rw [hrw, List.getLast?_concat]
    rw [dailyEmits, sampleStdPos, hlast, decide_eq_true hl2, hrv2, decide_eq_true hv]
    rfl
  have hwf252 : windowFull c2Series 252 = false := by
    have hw : windowAt c2Series 252 = none :: (List.replicate 250 (some (0 : ℚ)) ++ [some 1]) := by
      rw [windowAt, List.take_of_length_le (by rw [hlen]), c2Series]
      norm_num [ROLLING_WINDOW]
      rfl
    rw [windowFull, hw, List.all_cons]
    simp only [Option.isSome_none, Bool.false_and]
  have hbe252 : backfillEmits c2Series 252 = false := by
    rw [backfillEmits, hwf252]
    simp only [Bool.and_false, Bool.false_and]
  refine ⟨hde, ?_, ?_, hbe252, ?_⟩
  · rw [dailyRecords, if_pos hde]
    rfl
  · intro r hr
    rw [dailyRecords, if_pos hde] at hr
    rw [List.mem_singleton.mp hr, hlen]
  · rw [backfillIndices, hlen]
    apply List.filter_eq_nil_iff.mpr
    intro t ht
    have ht' : t < 253 := List.mem_range.mp ht
    rcases lt_or_ge t 251 with h | h
    · simp [backfillEmits_of_lt h]
    · have ht2 : t = 251 ∨ t = 252 := by omega
      rcases ht2 with rfl | rfl
      · have hw : windowAt c2Series 251 =
            some (1 / 100) :: none :: (List.replicate 250 (some (0 : ℚ)) ++ [some 1]).take 250 := by
          rw [windowAt]
          norm_num [ROLLING_WINDOW]
          rfl
        have hwf : windowFull c2Series 251 = false := by
          rw [windowFull, hw, List.all_cons, List.all_cons]
          simp only [Option.isSome_none, Option.isSome_some, Bool.true_and, Bool.false_and,
            Bool.and_false]
        rw [backfillEmits, hwf]
        simp only [Bool.and_false, Bool.false_and]
        exact Bool.false_ne_true
      · simp [hbe252]

/-- C2, amended:  Whenever the trailing 252 rows of a factor's
performance series are all defined (and at least 252 rows exist), the
steady-state branch and the backfill branch agree at the boundary: they
emit under exactly the same condition, and when they emit, the
steady-state record for the last day equals the backfill record for that
day — same date, same `factor_value`, and exactly equal Z-score (both are
`(x - mean)/std` over the identical trailing 252-value window). -/
theorem c2_boundary_agreement (xs : Series) (h252 : 252 ≤ xs.length)
    (hfull : (recentWindow xs).all (·.isSome) = true) :
    backfillEmits xs (xs.length - 1) = dailyEmits xs ∧
    (∀ fid : ℤ, dailyEmits xs = true →
      dailyRecords fid xs = [backfillRecord fid xs (xs.length - 1)]) := by
  have hne : xs ≠ [] := by
    intro h
    rw [h] at h252
    simp at h252
  have hwl : (recentWindow xs).length = 252 := recentWindow_length h252
  have hvl : (recentVals xs).length = 252 := by
    rw [recentVals, reduceOption_length_of_all_isSome hfull, hwl]
  have hlt : xs.length - 1 < xs.length := by
    have := List.length_pos.mpr hne
    omega
  obtain ⟨e, he⟩ : ∃ e, xs[xs.length - 1]? = some e :=
    ⟨_, List.getElem?_eq_getElem hlt⟩
  have hgl : (recentWindow xs).getLast? = some e := by
    rw [recentWindow_getLast h252, he]
  have heSome : e.isSome = true := by
    have hmem : e ∈ recentWindow xs := List.mem_of_mem_getLast? hgl
    exact (List.all_eq_true.mp hfull) e hmem
  obtain ⟨v, hv⟩ := Option.isSome_iff_exists.mp heSome
  have hgetD : xs.getD (xs.length - 1) none = some v := by
    rw [List.getD_eq_getElem?_getD, he, hv]
    rfl
  have hw : windowAt xs (xs.length - 1) = recentWindow xs :=
    (recentWindow_eq_windowAt_last hne).symm
  have hwv : windowVals xs (xs.length - 1) = recentVals xs := by
    rw [windowVals, recentVals, hw]
  have hwf : windowFull xs (xs.length - 1) = true := by
    rw [windowFull, hw]
    exact hfull
  have hvar : (0 : ℚ) ≤ sampleVar (recentVals xs) := sampleVar_nonneg _ (by omega)
  have hbne : (sampleVar (recentVals xs) != 0) = decide (0 < sampleVar (recentVals xs)) := by
    rcases hvar.lt_or_eq with h | h
    · rw [decide_eq_true h]
      exact bne_iff_ne.mpr (ne_of_gt h)
    · rw [← h]
      simp
  constructor
  · rw [backfillEmits, dailyEmits, sampleStdPos, hwv, hwf, hgl, hv]
    rw [decide_eq_true (show ROLLING_WINDOW - 1 ≤ xs.length - 1 by
      simp only [ROLLING_WINDOW]; omega)]
    rw [decide_eq_true hlt, decide_eq_true (show 2 ≤ (recentVals xs).length by omega)]
    have hj : ((some (some v) : Option (Option ℚ)).join).isSome = true := rfl
    simp only [Bool.true_and, Bool.and_true]
    rw [hbne, hj, Bool.and_true]
  · intro fid hde
    rw [dailyRecords, if_pos hde, backfillRecord, hwv, hgetD, hgl, hv]
    rfl

/-- Witness for `c2_boundary_agreement`: the hypotheses hold and the
conclusion follows at the concrete 252-row fully-defined series `s252`. -/
theorem c2_boundary_agreement_witness :
    (252 ≤ s252.length ∧ (recentWindow s252).all (·.isSome) = true) ∧
    (backfillEmits s252 (s252.length - 1) = dailyEmits s252 ∧
      (∀ fid : ℤ, dailyEmits s252 = true →
        dailyRecords fid s252 = [backfillRecord fid s252 (s252.length - 1)])) := by
  have h1 : 252 ≤ s252.length := by
    rw [s252, spikeSeries_length]
  have h2 : (recentWindow s252).all (·.isSome) = true := by
    rw [s252, recentWindow_spike (by omega), List.all_append, List.all_replicate]
    simp
  exact ⟨⟨h1, h2⟩, c2_boundary_agreement s252 h1 h2⟩

/-! ## Mode-decision lemmas (C6) -/

theorem modeOf_skip_iff {n c : ℕ} : modeOf n c = ZMode.skip ↔ n < 252 := by
  unfold modeOf ROLLING_WINDOW
  split_ifs with h1 h2 <;> simp <;> omega

theorem modeOf_backfill_iff {n c : ℕ} : modeOf n c = ZMode.backfill ↔ 252 ≤ n ∧ c < 252 := by
  unfold modeOf ROLLING_WINDOW
  split_ifs with h1 h2 <;> simp <;> omega

theorem modeOf_daily_iff {n c : ℕ} : modeOf n c = ZMode.daily ↔ 252 ≤ n ∧ 252 ≤ c := by
  unfold modeOf ROLLING_WINDOW
  split_ifs with h1 h2 <;> simp <;> omega

theorem perFactorRecords_skip {counts : ℤ → ℕ} {p : ℤ × Series}
    (h : p.2.length < 252) : perFactorRecords counts p = [] := by
  rw [perFactorRecords, modeOf_skip_iff.mpr h]

theorem perFactorRecords_backfill {counts : ℤ → ℕ} {p : ℤ × Series}
    (h1 : 252 ≤ p.2.length) (h2 : counts p.1 < 252) :
    perFactorRecords counts p = backfillRecords p.1 p.2 := by
  rw [perFactorRecords, modeOf_backfill_iff.mpr ⟨h1, h2⟩]

theorem perFactorRecords_daily {counts : ℤ → ℕ} {p : ℤ × Series}
    (h1 : 252 ≤ p.2.length) (h2 : 252 ≤ counts p.1) :
    perFactorRecords counts p = dailyRecords p.1 p.2 := by
  rw [perFactorRecords, modeOf_daily_iff.mpr ⟨h1, h2⟩]

theorem dailyRecords_length_le_one (fid : ℤ) (xs : Series) :
    (dailyRecords fid xs).length ≤ 1 := by
  rw [dailyRecords]
  split_ifs <;> simp

theorem dailyRecords_dateIdx (fid : ℤ) (xs : Series) :
    ∀ r ∈ dailyRecords fid xs, r.dateIdx = xs.length - 1 := by
  intro r hr
  rw [dailyRecords] at hr
  split_ifs at hr
  · rw [List.mem_singleton.mp hr]
  · cases hr

theorem s252_length : s252.length = 252 := by
  rw [s252, spikeSeries_length]

theorem dailyRecords_s252_ne_nil (fid : ℤ) : dailyRecords fid s252 ≠ [] := by
  have hde : dailyEmits s252 = true := by
    rw [s252]
    exact dailyEmits_spike (by omega) (by norm_num)
  rw [dailyRecords, if_pos hde]
  simp

theorem backfillRecords_s252 (fid : ℤ) :
    backfillRecords fid s252 = [backfillRecord fid s252 251] := by
  have hbi : backfillIndices s252 = [251] := by
    rw [s252]
    exact backfillIndices_spike (by omega) (by norm_num)
  rw [backfillRecords, hbi, List.map_singleton]

/-- C6:  The per-factor mode decision is exactly the spec's state
machine: skip iff fewer than 252 performance rows, backfill iff enough
performance rows but a persisted Z-score count below 252, daily otherwise.
Each mode produces only that factor's records (skip: none; backfill: the
whole-history records, and the factor is listed for full-history
replacement; daily: at most one record, dated the factor's last day).  The
invocation's output is the concatenation of independent per-factor
results, and one invocation backfills factor 2 while daily-updating
factor 1 on the concrete mixed input. -/
theorem c6_mode_state_machine :
    (∀ n c : ℕ,
      (modeOf n c = ZMode.skip ↔ n < 252) ∧
      (modeOf n c = ZMode.backfill ↔ 252 ≤ n ∧ c < 252) ∧
      (modeOf n c = ZMode.daily ↔ 252 ≤ n ∧ 252 ≤ c)) ∧
    (∀ (counts : ℤ → ℕ) (p : ℤ × Series),
      (p.2.length < 252 → perFactorRecords counts p = []) ∧
      (252 ≤ p.2.length → counts p.1 < 252 →
        perFactorRecords counts p = backfillRecords p.1 p.2) ∧
      (252 ≤ p.2.length → 252 ≤ counts p.1 →
        perFactorRecords counts p = dailyRecords p.1 p.2 ∧
        (perFactorRecords counts p).length ≤ 1 ∧
        ∀ r ∈ perFactorRecords counts p, r.dateIdx = p.2.length - 1)) ∧
    (∀ (counts : ℤ → ℕ) (l : List (ℤ × Series)),
      calculateZscoresSmart counts l =
        ((l.map (perFactorRecords counts)).flatten, backfilledFactors counts l) ∧
      ∀ p ∈ l, modeOf p.2.length (counts p.1) = ZMode.backfill →
        p.1 ∈ backfilledFactors counts l) ∧
    (backfilledFactors c6counts [(1, s252), (2, s252)] = [2] ∧
      (calculateZscoresSmart c6counts [(1, s252), (2, s252)]).1 =
        dailyRecords 1 s252 ++ backfillRecords 2 s252 ∧
      dailyRecords 1 s252 ≠ [] ∧ backfillRecords 2 s252 ≠ []) := by
  have hm1 : modeOf s252.length (c6counts 1) = ZMode.daily := by
    rw [s252_length]
    exact modeOf_daily_iff.mpr ⟨by omega, by norm_num [c6counts]⟩
  have hm2 : modeOf s252.length (c6counts 2) = ZMode.backfill := by
    rw [s252_length]
    exact modeOf_backfill_iff.mpr ⟨by omega, by norm_num [c6counts]⟩
  refine ⟨?_, ?_, ?_, ?_, ?_, ?_, ?_⟩
  · intro n c
    exact ⟨modeOf_skip_iff, modeOf_backfill_iff, modeOf_daily_iff⟩
  · intro counts p
    refine ⟨fun h => perFactorRecords_skip h, fun h1 h2 => perFactorRecords_backfill h1 h2,
      fun h1 h2 => ?_⟩
    have hd := @perFactorRecords_daily counts p h1 h2
    refine ⟨hd, ?_, ?_⟩
    · rw [hd]
      exact dailyRecords_length_le_one p.1 p.2
    · rw [hd]
      exact dailyRecords_dateIdx p.1 p.2
  · intro counts l
    exact ⟨rfl, fun p hp hmode => List.mem_map.mpr
      ⟨p, List.mem_filter.mpr ⟨hp, by rw [hmode]; rfl⟩, rfl⟩⟩
  · rw [backfilledFactors]
    rw [show ([(1, s252), (2, s252)] : List (ℤ × Series)).filter
        (fun p => modeOf p.2.length (c6counts p.1) == ZMode.backfill) = [(2, s252)] by
      rw [List.filter_cons, List.filter_cons, List.filter_nil]
      simp only [hm1, hm2]
      rfl]
    rfl
  · have hp1 : perFactorRecords c6counts ((1 : ℤ), s252) = dailyRecords 1 s252 := by
      rw [perFactorRecords, hm1]
    have hp2 : perFactorRecords c6counts ((2 : ℤ), s252) = backfillRecords 2 s252 := by
      rw [perFactorRecords, hm2]
    rw [calculateZscoresSmart]
    simp only [List.map_cons, List.map_nil, hp1, hp2, List.flatten_cons, List.flatten_nil,
      List.append_nil]
  · exact dailyRecords_s252_ne_nil 1
  · rw [backfillRecords_s252]
    simp

/-- Witness for `c6_mode_state_machine`: the theorem's characterisations
applied at concrete inputs. -/
theorem c6_mode_state_machine_witness :
    modeOf 100 300 = ZMode.skip ∧ modeOf 260 0 = ZMode.backfill ∧
    perFactorRecords c6counts ((3 : ℤ), ([] : Series)) = [] := by
  refine ⟨?_, ?_, ?_⟩
  · exact (c6_mode_state_machine.1 100 300).1.mpr (by omega)
  · exact (c6_mode_state_machine.1 260 0).2.1.mpr ⟨by omega, by omega⟩
  · exact (c6_mode_state_machine.2.1 c6counts ((3 : ℤ), ([] : Series))).1 (by simp)

/-! ## C5: what the upload step deletes -/

/-- C5, code-bug exhibit:  With one persisted record (factor 1,
date 0) and a daily-update run whose records are (factor 1, date 1) and
(factor 2, date 0) — no backfills — the upload's cross-product delete
removes the persisted (factor 1, date 0) record even though no uploaded
record carries that key: the store afterwards holds exactly the two new
records and no (factor 1, date 0) record at all, contradicting the
claimed frame property. -/
theorem c5_cross_product_delete_loses_record :
    upload c5db c5recs [] = c5recs ∧
    (∀ r ∈ upload c5db c5recs [], ¬ (r.factorId = 1 ∧ r.dateIdx = 0)) ∧
    ({ factorId := 1, dateIdx := 0, zscore := 0, factorValue := none } : ZRecord) ∈ c5db := by
  have hup : upload c5db c5recs [] = c5recs := by
    rw [upload, c5db, c5recs]
    rfl
  refine ⟨hup, ?_, ?_⟩
  · intro r hr
    rw [hup, c5recs] at hr
    rcases List.mem_cons.mp hr with h | hr
    · rw [h]
      intro hc
      exact absurd hc.2 (by norm_num)
    rcases List.mem_cons.mp hr with h | hr
    · rw [h]
      intro hc
      exact absurd hc.1 (by norm_num)
    · cases hr
  · rw [c5db]
    exact List.mem_singleton.mpr rfl

/-! ## C10: emitted records are finite and carry the day's value -/

theorem windowAt_getElem {xs : Series} {t : ℕ} (ht : t < xs.length) :
    (windowAt xs t)[t - (t + 1 - ROLLING_WINDOW)]? = xs[t]? := by
  have hk : t + 1 - ROLLING_WINDOW ≤ t := by
    simp only [ROLLING_WINDOW]
    omega
  rw [windowAt, List.getElem?_drop]
  have h1 : t + 1 - ROLLING_WINDOW + (t - (t + 1 - ROLLING_WINDOW)) = t := by omega
  rw [h1, List.getElem?_take_of_lt (by omega)]

theorem exists_getD_of_windowFull {xs : Series} {t : ℕ} (hf : windowFull xs t = true)
    (ht : t < xs.length) : ∃ v : ℚ, xs.getD t none = some v := by
  obtain ⟨a, hx⟩ : ∃ a, xs[t]? = some a := ⟨_, List.getElem?_eq_getElem ht⟩
  have hw : (windowAt xs t)[t - (t + 1 - ROLLING_WINDOW)]? = some a := by
    rw [windowAt_getElem ht, hx]
  have hmem : a ∈ windowAt xs t := List.getElem?_mem hw
  rw [windowFull] at hf
  have hs : a.isSome = true := (List.all_eq_true.mp hf) _ hmem
  obtain ⟨v, hv⟩ := Option.isSome_iff_exists.mp hs
  refine ⟨v, ?_⟩
  rw [List.getD_eq_getElem?_getD, hx, hv]
  rfl

theorem windowVals_length_of_full {xs : Series} {t : ℕ} (hf : windowFull xs t = true)
    (h1 : ROLLING_WINDOW - 1 ≤ t) (ht : t < xs.length) :
    (windowVals xs t).length = 252 := by
  rw [windowFull] at hf
  rw [windowVals, reduceOption_length_of_all_isSome hf, windowAt, List.length_drop,
    List.length_take]
  simp only [ROLLING_WINDOW] at h1 ⊢
  omega

/-- C10:  Every record emitted by `calculate_zscores_smart` — in
backfill mode or daily mode — belongs to one of the input factors, its
`factor_value` is non-null and equals that factor's `perf_1d` on the
record's date, and its Z-score is the finite quotient
`(value − mean) / sqrt(variance)` of a window with strictly positive
sample variance (zero-variance windows and undefined `perf_1d` days
produce no record, so no NaN or ±infinity is ever emitted). -/
theorem c10_records_finite_and_valued
    (counts : ℤ → ℕ) (l : List (ℤ × Series)) (r : ZRecord)
    (hr : r ∈ (calculateZscoresSmart counts l).1) :
    ∃ xs : Series, (r.factorId, xs) ∈ l ∧
      ∃ v : ℚ, xs.getD r.dateIdx none = some v ∧ r.factorValue = some v ∧
        ∃ w : List ℚ, 0 < sampleVar w ∧
          r.zscore = ((v - mean w : ℚ) : ℝ) / Real.sqrt ((sampleVar w : ℝ)) := by
  rw [calculateZscoresSmart] at hr
  obtain ⟨L, hL, hrL⟩ := List.mem_flatten.mp hr
  obtain ⟨p, hp, rfl⟩ := List.mem_map.mp hL
  rcases hmode : modeOf p.2.length (counts p.1) with _ | _ | _
  · rw [perFactorRecords, hmode] at hrL
    cases hrL
  · rw [perFactorRecords, hmode] at hrL
    rw [backfillRecords] at hrL
    obtain ⟨t, ht, rfl⟩ := List.mem_map.mp hrL
    rw [backfillIndices] at ht
    obtain ⟨htr, hemit⟩ := List.mem_filter.mp ht
    have htlen : t < p.2.length := List.mem_range.mp htr
    rw [backfillEmits] at hemit
    simp only [Bool.and_eq_true, decide_eq_true_eq, bne_iff_ne, ne_eq] at hemit
    obtain ⟨⟨⟨h251, _⟩, hfull⟩, hvne⟩ := hemit
    obtain ⟨v, hv⟩ := exists_getD_of_windowFull hfull htlen
    refine ⟨p.2, by simpa using hp, v, hv, ?_, windowVals p.2 t, ?_, ?_⟩
    · show p.2.getD t none = some v
      exact hv
    · have hlen : (windowVals p.2 t).length = 252 :=
        windowVals_length_of_full hfull h251 htlen
      have hnn := sampleVar_nonneg (windowVals p.2 t) (by omega)
      exact lt_of_le_of_ne hnn (Ne.symm hvne)
    · show zscoreAt (windowVals p.2 t) ((p.2.getD t none).getD 0) = _
      rw [hv]
      rfl
  · rw [perFactorRecords, hmode] at hrL
    have hdm := modeOf_daily_iff.mp hmode
    rw [dailyRecords] at hrL
    split_ifs at hrL with hde
    · rw [List.mem_singleton] at hrL
      subst hrL
      rw [dailyEmits, sampleStdPos] at hde
      simp only [Bool.and_eq_true, decide_eq_true_eq] at hde
      obtain ⟨⟨hlen2, hvarpos⟩, hsome⟩ := hde
      obtain ⟨e, he⟩ := Option.isSome_iff_exists.mp hsome
      have hj : (recentWindow p.2).getLast? = some (some e) := Option.join_eq_some.mp he
      have hgl : (recentWindow p.2).getLast? = p.2[p.2.length - 1]? :=
        recentWindow_getLast hdm.1
      have hx : p.2[p.2.length - 1]? = some (some e) := by
        rw [← hgl]
        exact hj
      have hgd : p.2.getD (p.2.length - 1) none = some e := by
        rw [List.getD_eq_getElem?_getD, hx]
        rfl
      refine ⟨p.2, by simpa using hp, e, hgd, he, recentVals p.2, hvarpos, ?_⟩
      show zscoreAt (recentVals p.2) (((recentWindow p.2).getLast?.join).getD 0) = _
      rw [he]
      rfl
    · cases hrL

/-- Witness for `c10_records_finite_and_valued`: a concrete backfill run
whose single emitted record satisfies the conclusion. -/
theorem c10_records_witness :
    backfillRecord 1 s252 251 ∈ (calculateZscoresSmart (fun _ => 0) [(1, s252)]).1 ∧
    (∃ xs : Series, ((backfillRecord 1 s252 251).factorId, xs) ∈ [((1 : ℤ), s252)] ∧
      ∃ v : ℚ, xs.getD (backfillRecord 1 s252 251).dateIdx none = some v ∧
        (backfillRecord 1 s252 251).factorValue = some v ∧
        ∃ w : List ℚ, 0 < sampleVar w ∧
          (backfillRecord 1 s252 251).zscore =
            ((v - mean w : ℚ) : ℝ) / Real.sqrt ((sampleVar w : ℝ))) := by
  have hmem : backfillRecord 1 s252 251 ∈ (calculateZscoresSmart (fun _ => 0) [(1, s252)]).1 := by
    rw [calculateZscoresSmart]
    simp only [List.map_cons, List.map_nil, List.flatten_cons, List.flatten_nil,
      List.append_nil]
    rw [perFactorRecords_backfill (p := ((1 : ℤ), s252)) (by rw [s252_length])
      (by norm_num), backfillRecords_s252]
    exact List.mem_singleton.mpr rfl
  exact ⟨hmem, c10_records_finite_and_valued (fun _ => 0) [(1, s252)] _ hmem⟩

/-! ## C3: trailing-return features -/

theorem c3Col_getD {k : ℕ} (hk : k < 22) : c3Col.getD k none = some ((k : ℚ) + 1) := by
  rw [c3Col, List.getD_eq_getElem?_getD, List.getElem?_map, List.getElem?_range hk]
  rfl

/-- C3, counterexample:  On a 22-row panel column with prices
`1, 2, ..., 22` the 1-month feature (h = 21) computed by the code is
`22 / 2 − 1 = 10`, using `iloc[-21]` (row index 1, i.e. 20 trading days
before the last row) — whereas the claimed formula
`price[last] / price[last−21] − 1` uses row index 0 and would give
`22 / 1 − 1 = 21`. -/
theorem c3_lookback_off_by_one :
    momentumFeature 22 c3Col 21 = some 10 ∧
    (c3Col.getD (22 - 1 - 21) none).map (fun pPrev => (22 : ℚ) / pPrev - 1) = some 21 ∧
    (10 : ℚ) ≠ 21 := by
  refine ⟨?_, ?_, by norm_num⟩
  · have hsl : safeLookback 22 21 = true := by
      rw [safeLookback, decide_eq_false (by omega : ¬ (22 ≤ 21))]
      rfl
    have h1 : c3Col.getD (22 - 1) none = some 22 := by
      rw [show (22 - 1 : ℕ) = 21 from rfl, c3Col_getD (by omega)]
      norm_num
    have h2 : c3Col.getD (22 - 21) none = some 2 := by
      rw [show (22 - 21 : ℕ) = 1 from rfl, c3Col_getD (by omega)]
      norm_num
    rw [momentumFeature, if_pos hsl, h1, h2]
    norm_num
  · have h0 : c3Col.getD (22 - 1 - 21) none = some 1 := by
      rw [show (22 - 1 - 21 : ℕ) = 0 from rfl, c3Col_getD (by omega)]
      norm_num
    rw [h0]
    norm_num

/-- C3, amended:  For every horizon h ∈ {21, 63, 252}: if the panel
has at most h rows, the trailing-return feature is `none` for every
ticker (no partial computation); if the panel has more than h rows, the
feature of each ticker is `price[last] / price[row n−h] − 1` — the price
`h − 1` (not h) trading days before the last row — and is `none` exactly
when either of those two prices is missing. -/
theorem c3_trailing_return_guard_and_offset (nRows : ℕ)
    (cols : List (String × List (Option ℚ))) (lookback : ℕ)
    (hlb : lookback = 21 ∨ lookback = 63 ∨ lookback = 252) :
    (nRows ≤ lookback → ∀ pr ∈ momentumFeatures nRows cols lookback, pr.2 = none) ∧
    (lookback < nRows → ∀ c ∈ cols,
      momentumFeature nRows c.2 lookback =
        match c.2.getD (nRows - 1) none, c.2.getD ((nRows - 1) - (lookback - 1)) none with
        | some pLast, some pPrev => some (pLast / pPrev - 1)
        | _, _ => none) := by
  constructor
  · intro hle pr hpr
    obtain ⟨c, _, rfl⟩ := List.mem_map.mp hpr
    show momentumFeature nRows c.2 lookback = none
    have hsl : safeLookback nRows lookback = false := by
      rw [safeLookback, decide_eq_true hle]
      rfl
    rw [momentumFeature, hsl]
    simp
  · intro hlt c _
    have hsl : safeLookback nRows lookback = true := by
      rw [safeLookback, decide_eq_false (by omega : ¬ (nRows ≤ lookback))]
      rfl
    have hidx : nRows - lookback = (nRows - 1) - (lookback - 1) := by
      rcases hlb with rfl | rfl | rfl <;> omega
    rw [momentumFeature, if_pos hsl, hidx]

/-- Witness for `c3_trailing_return_guard_and_offset` at the 22-row panel
with horizon 21. -/
theorem c3_trailing_return_witness :
    ((21 : ℕ) = 21 ∨ (21 : ℕ) = 63 ∨ (21 : ℕ) = 252) ∧
    ((22 ≤ 21 → ∀ pr ∈ momentumFeatures 22 [("X", c3Col)] 21, pr.2 = none) ∧
      (21 < 22 → ∀ c ∈ [("X", c3Col)],
        momentumFeature 22 c.2 21 =
          match c.2.getD (22 - 1) none, c.2.getD ((22 - 1) - (21 - 1)) none with
          | some pLast, some pPrev => some (pLast / pPrev - 1)
          | _, _ => none)) :=
  ⟨Or.inl rfl, c3_trailing_return_guard_and_offset 22 [("X", c3Col)] 21 (Or.inl rfl)⟩

/-! ## C7: the benchmark regression -/

theorem sum_map_affine (l : List (ℚ × ℚ)) (A B : ℚ) :
    (l.map (fun p => p.2 - (A + B * p.1))).sum
      = sumY l - ((l.length : ℚ) * A + B * sumX l) := by
  induction l with
  | nil => simp [sumY, sumX]
  | cons a l ih =>
    simp only [List.map_cons, List.sum_cons, sumY, sumX, List.length_cons,
      Nat.cast_succ] at ih ⊢
    rw [ih]
    ring

theorem sum_map_affine_x (l : List (ℚ × ℚ)) (A B : ℚ) :
    (l.map (fun p => (p.2 - (A + B * p.1)) * p.1)).sum
      = sumXY l - (A * sumX l + B * sumXX l) := by
  induction l with
  | nil => simp [sumXY, sumX, sumXX]
  | cons a l ih =>
    simp only [List.map_cons, List.sum_cons, sumXY, sumX, sumXX] at ih ⊢
    rw [ih]
    ring

theorem sum_residuals {l : List (ℚ × ℚ)} (hn : l ≠ []) :
    (l.map (fun p => p.2 - (olsIntercept l + olsSlope l * p.1))).sum = 0 := by
  have hnn : (l.length : ℚ) ≠ 0 := by
    exact_mod_cast (List.length_pos.mpr hn).ne'
  rw [sum_map_affine, olsIntercept]
  field_simp

theorem sum_residuals_x {l : List (ℚ × ℚ)} (hn : l ≠ []) (hs : Sxx l ≠ 0) :
    (l.map (fun p => (p.2 - (olsIntercept l + olsSlope l * p.1)) * p.1)).sum = 0 := by
  have hnn : (l.length : ℚ) ≠ 0 := by
    exact_mod_cast (List.length_pos.mpr hn).ne'
  rw [sum_map_affine_x]
  have key : sumXY l - (olsIntercept l * sumX l + olsSlope l * sumXX l)
      = Sxy l - olsSlope l * Sxx l := by
    rw [olsIntercept, Sxy, Sxx]
    field_simp
    ring
  rw [key, olsSlope, div_mul_cancel₀ _ hs, sub_self]

theorem ssr_expand (l : List (ℚ × ℚ)) (A B a b : ℚ) :
    ssr l a b = ssr l A B
      + (l.map (fun p => ((A - a) + (B - b) * p.1) ^ 2)).sum
      + 2 * ((A - a) * (l.map (fun p => p.2 - (A + B * p.1))).sum
             + (B - b) * (l.map (fun p => (p.2 - (A + B * p.1)) * p.1)).sum) := by
  induction l with
  | nil =>
    simp [ssr]
  | cons q l ih =>
    simp only [ssr, List.map_cons, List.sum_cons] at ih ⊢
    rw [ih]
    ring

/-- The fitted coefficients minimise the sum of squared residuals: the
code's `lstsq` slope and intercept are the (unique, given nonzero
x-variance) ordinary-least-squares solution. -/
theorem ssr_minimized {l : List (ℚ × ℚ)} (hn : l ≠ []) (hs : Sxx l ≠ 0) (a b : ℚ) :
    ssr l (olsIntercept l) (olsSlope l) ≤ ssr l a b := by
  have h1 := sum_residuals hn
  have h2 := sum_residuals_x hn hs
  have hexp := ssr_expand l (olsIntercept l) (olsSlope l) a b
  rw [h1, h2, mul_zero, mul_zero, add_zero, mul_zero, add_zero] at hexp
  have hsq : 0 ≤ (l.map
      (fun p => ((olsIntercept l - a) + (olsSlope l - b) * p.1) ^ 2)).sum := by
    apply List.sum_nonneg
    intro x hx
    obtain ⟨p, _, rfl⟩ := List.mem_map.mp hx
    positivity
  linarith [hexp, hsq]

theorem alignedPairs_length_le (market stock : List (Option ℚ)) :
    (alignedPairs market stock).length ≤ market.reduceOption.length := by
  induction market generalizing stock with
  | nil => simp [alignedPairs]
  | cons a ms ih =>
    cases stock with
    | nil => simp [alignedPairs]
    | cons b ss =>
      cases a with
      | none =>
        show (List.filterMap _ ((none :: ms).zip (b :: ss))).length ≤
          (none :: ms).reduceOption.length
        rw [List.zip_cons_cons, List.filterMap_cons, List.reduceOption_cons_of_none]
        exact ih ss
      | some x =>
        cases b with
        | none =>
          show (List.filterMap _ ((some x :: ms).zip (none :: ss))).length ≤
            (some x :: ms).reduceOption.length
          rw [List.zip_cons_cons, List.filterMap_cons, List.reduceOption_cons_of_some]
          exact le_trans (ih ss) (by simp)
        | some y =>
          show (List.filterMap _ ((some x :: ms).zip (some y :: ss))).length ≤
            (some x :: ms).reduceOption.length
          rw [List.zip_cons_cons, List.filterMap_cons, List.reduceOption_cons_of_some]
          show ((x, y) :: List.filterMap _ (ms.zip ss)).length ≤ (x :: ms.reduceOption).length
          simp only [List.length_cons]
          exact Nat.succ_le_succ (ih ss)

/-- C7:  For every pair of benchmark/ticker log-return columns: beta
and idiosyncratic_vol are defined exactly when the number of dates on
which both returns are defined reaches 200; a defined idiosyncratic_vol
equals `std(residuals)·√252` and is nonnegative; and — whenever the
overlap suffices and the x-variance is nonzero — beta is the OLS slope:
together with the fitted intercept it minimises the sum of squared
residuals over all affine fits. -/
theorem c7_regression_features (market stock : List (Option ℚ)) :
    ((betaFeature market stock).isSome ↔ 200 ≤ (alignedPairs market stock).length) ∧
    ((idioVolFeature market stock).isSome ↔ 200 ≤ (alignedPairs market stock).length) ∧
    (∀ x : ℝ, idioVolFeature market stock = some x →
      0 ≤ x ∧ x = Real.sqrt ((popVar (olsResiduals (alignedPairs market stock)) : ℝ))
        * Real.sqrt 252) ∧
    (200 ≤ (alignedPairs market stock).length → Sxx (alignedPairs market stock) ≠ 0 →
      betaFeature market stock = some (olsSlope (alignedPairs market stock)) ∧
      ∀ a b : ℚ,
        ssr (alignedPairs market stock) (olsIntercept (alignedPairs market stock))
            (olsSlope (alignedPairs market stock))
          ≤ ssr (alignedPairs market stock) a b) := by
  have hle := alignedPairs_length_le market stock
  refine ⟨?_, ?_, ?_, ?_⟩
  · rw [betaFeature, MIN_OVERLAP]
    split_ifs with h1 h2 <;> simp <;> omega
  · rw [idioVolFeature, MIN_OVERLAP]
    split_ifs with h1 h2 <;> simp <;> omega
  · intro x hx
    rw [idioVolFeature, MIN_OVERLAP] at hx
    dsimp only at hx
    split_ifs at hx with h1 h2
    cases hx
    constructor
    · positivity
    · rfl
  · intro hlen hs
    have hne : alignedPairs market stock ≠ [] := by
      intro hcontra
      rw [hcontra] at hlen
      simp at hlen
    refine ⟨?_, fun a b => ssr_minimized hne hs a b⟩
    rw [betaFeature, MIN_OVERLAP]
    rw [if_neg (by omega), if_neg (by omega)]

theorem alignedPairs_map_some (u v : List ℚ) :
    alignedPairs (u.map some) (v.map some) = u.zip v := by
  induction u generalizing v with
  | nil => rfl
  | cons a us ih =>
    cases v with
    | nil => rfl
    | cons b vs =>
      show alignedPairs (some a :: us.map some) (some b :: vs.map some) = (a, b) :: us.zip vs
      rw [alignedPairs, List.zip_cons_cons, List.filterMap_cons]
      show (a, b) :: List.filterMap _ ((us.map some).zip (vs.map some)) = _
      exact congrArg (List.cons (a, b)) (ih vs)

/-- Witness for `c7_regression_features`: 200 aligned observations with
nonzero x-variance (100 market returns at 0, then 100 at 1). -/
theorem c7_regression_witness :
    (200 ≤ (alignedPairs c7Col c7Col).length ∧ Sxx (alignedPairs c7Col c7Col) ≠ 0) ∧
    (betaFeature c7Col c7Col = some (olsSlope (alignedPairs c7Col c7Col)) ∧
      ∀ a b : ℚ,
        ssr (alignedPairs c7Col c7Col) (olsIntercept (alignedPairs c7Col c7Col))
            (olsSlope (alignedPairs c7Col c7Col))
          ≤ ssr (alignedPairs c7Col c7Col) a b) := by
  have hw : alignedPairs c7Col c7Col =
      List.replicate 100 ((0 : ℚ), (0 : ℚ)) ++ List.replicate 100 (1, 1) := by
    rw [c7Col, alignedPairs_map_some,
      List.zip_append (by simp), List.zip_replicate, List.zip_replicate]
    simp
  have hlen : 200 ≤ (alignedPairs c7Col c7Col).length := by
    rw [hw]
    simp only [List.length_append, List.length_replicate]
    omega
  have hsxx : Sxx (alignedPairs c7Col c7Col) ≠ 0 := by
    rw [hw, Sxx, sumXX, sumX]
    simp only [List.map_append, List.map_replicate, List.sum_append, List.sum_replicate,
      List.length_append, List.length_replicate, nsmul_eq_mul]
    norm_num
  exact ⟨⟨hlen, hsxx⟩, (c7_regression_features c7Col c7Col).2.2.2 hlen hsxx⟩

/-! ## C4: equal-weighted period returns -/

/-- C4:  `calculate_period_return` is undefined when the panel has at
most `days` rows or when no membership ticker is a panel column; otherwise
it is the mean of the defined individual returns
(`iloc[-1]/iloc[-days-1] - 1`) over the membership tickers present in the
panel, undefined when none of those is defined.  Every output record
reports `num_holdings` as the full membership size.  On the concrete
scenario — membership {A, B, C} with C absent from a 2-row panel — the
1-day return averages A and B only (`1/40`) while `num_holdings` is 3. -/
theorem c4_period_return_and_holdings (panel : Panel) (tickers : List String) (days : ℕ) :
    (panel.nRows ≤ days → calculatePeriodReturn panel tickers days = none) ∧
    (tickers.filter (fun t => (panel.cols.lookup t).isSome) = [] →
      calculatePeriodReturn panel tickers days = none) ∧
    (days < panel.nRows →
      tickers.filter (fun t => (panel.cols.lookup t).isSome) ≠ [] →
      calculatePeriodReturn panel tickers days =
        (let rets := (tickers.filter (fun t => (panel.cols.lookup t).isSome)).filterMap
            (fun t => tickerReturn panel t days)
         if rets.isEmpty then none else some (mean rets))) ∧
    (∀ holdings : List (ℤ × List String),
      ∀ rec ∈ calculateAllFactorPerformance panel holdings,
      ∃ h ∈ holdings, rec.factorId = h.1 ∧ rec.numHoldings = h.2.length ∧
        rec.perfs = PERIODS.map (fun pd => (pd.1, calculatePeriodReturn panel h.2 pd.2))) ∧
    calculateAllFactorPerformance c4Panel [(7, ["A", "B", "C"])] =
      [{ factorId := 7, numHoldings := 3,
         perfs := [("perf_1d", some (1 / 40)), ("perf_5d", none), ("perf_1m", none),
                   ("perf_3m", none), ("perf_6m", none), ("perf_1y", none)] }] := by
  refine ⟨?_, ?_, ?_, ?_, ?_⟩
  · intro h
    rw [calculatePeriodReturn, if_pos h]
  · intro hf
    rw [calculatePeriodReturn]
    dsimp only
    split_ifs with h1 h2 <;>
      first
        | rfl
        | exact absurd (show (tickers.filter
            (fun t => (panel.cols.lookup t).isSome)).isEmpty = true by rw [hf]; rfl) h2
  · intro h1 h2
    rw [calculatePeriodReturn]
    dsimp only
    rw [if_neg (not_le.mpr h1),
      if_neg (by simpa [List.isEmpty_iff] using h2)]
  · intro holdings rec hrec
    obtain ⟨h, hh, rfl⟩ := List.mem_map.mp hrec
    exact ⟨h, hh, rfl, rfl, rfl⟩
  · rw [calculateAllFactorPerformance, List.map_singleton]
    have hA : c4Panel.cols.lookup ("A") = some [some 100, some 110] := rfl
    have hB : c4Panel.cols.lookup ("B") = some [some 200, some 190] := rfl
    have hC : c4Panel.cols.lookup ("C") = none := rfl
    have hfil : (["A", "B", "C"].filter (fun t => (c4Panel.cols.lookup t).isSome))
        = ["A", "B"] := rfl
    have h1d : calculatePeriodReturn c4Panel ["A", "B", "C"] 1 = some (1 / 40) := by
      rw [calculatePeriodReturn]
      dsimp only
      rw [if_neg (by decide : ¬ (c4Panel.nRows ≤ 1)), hfil]
      have hrets : (["A", "B"].filterMap (fun t => tickerReturn c4Panel t 1))
          = [110 / 100 - 1, 190 / 200 - 1] := rfl
      rw [hrets]
      rw [if_neg (by simp [List.isEmpty_iff])]
      rw [mean]
      norm_num
    have hrest : ∀ d : ℕ, c4Panel.nRows ≤ d →
        calculatePeriodReturn c4Panel ["A", "B", "C"] d = none := by
      intro d hd
      rw [calculatePeriodReturn, if_pos hd]
    rw [PERIODS]
    simp only [List.map_cons, List.map_nil]
    rw [h1d, hrest 5 (by decide), hrest 21 (by decide), hrest 63 (by decide),
      hrest 126 (by decide), hrest 252 (by decide)]
    rfl

/-- Witness for `c4_period_return_and_holdings`: the guard conjunct applied
at the concrete panel (2 rows ≤ 5 days). -/
theorem c4_period_return_witness :
    c4Panel.nRows ≤ 5 ∧ calculatePeriodReturn c4Panel ["A", "B", "C"] 5 = none :=
  ⟨by decide, (c4_period_return_and_holdings c4Panel ["A", "B", "C"] 5).1 (by decide)⟩

/-! ## C9: fractional percentile ranks -/

theorem countLt_add_countEq (vals : List ℚ) (w : ℚ) :
    countLt vals w + countEq vals w = (vals.filter (fun x => decide (x ≤ w))).length := by
  induction vals with
  | nil => rfl
  | cons a l ih =>
    rw [countLt, countEq] at ih ⊢
    rw [List.filter_cons, List.filter_cons, List.filter_cons]
    rcases lt_trichotomy a w with h | h | h
    · rw [decide_eq_true h, decide_eq_true h.le, decide_eq_false (ne_of_lt h)]
      simp only [if_true, Bool.false_eq_true, if_false, List.length_cons]
      omega
    · subst h
      rw [decide_eq_false (lt_irrefl a), decide_eq_true rfl, decide_eq_true le_rfl]
      simp only [if_true, Bool.false_eq_true, if_false, List.length_cons]
      omega
    · rw [decide_eq_false (not_lt.mpr h.le), decide_eq_false (ne_of_gt h),
        decide_eq_false (not_le.mpr h)]
      simp only [Bool.false_eq_true, if_false]
      omega

theorem length_filter_mono {p q : ℚ → Bool} (l : List ℚ)
    (h : ∀ x ∈ l, p x = true → q x = true) :
    (l.filter p).length ≤ (l.filter q).length := by
  induction l with
  | nil => exact le_refl _
  | cons a l ih =>
    have ih' := ih (fun x hx => h x (List.mem_cons_of_mem a hx))
    rw [List.filter_cons, List.filter_cons]
    by_cases hp : p a = true
    · rw [if_pos hp, if_pos (h a (List.mem_cons_self a l) hp)]
      simpa using ih'
    · rw [if_neg hp]
      split_ifs
      · exact le_trans ih' (by simp)
      · exact ih'

theorem countEq_pos_of_mem {vals : List ℚ} {v : ℚ} (hv : v ∈ vals) :
    1 ≤ countEq vals v :=
  List.length_pos_of_mem (List.mem_filter.mpr ⟨hv, by simp⟩)

theorem countLe_le_length (vals : List ℚ) (w : ℚ) :
    countLt vals w + countEq vals w ≤ vals.length := by
  rw [countLt_add_countEq]
  exact List.length_filter_le _ _

theorem fracRank_pos_le_one {vals : List ℚ} {v : ℚ} (hv : v ∈ vals) :
    0 < fracRank vals v ∧ fracRank vals v ≤ 1 := by
  have hnp : 0 < vals.length := List.length_pos_of_mem hv
  have hn : (0 : ℚ) < vals.length := by exact_mod_cast hnp
  have hce : 1 ≤ countEq vals v := countEq_pos_of_mem hv
  have hle : countLt vals v + countEq vals v ≤ vals.length := countLe_le_length vals v
  have hceQ : (1 : ℚ) ≤ (countEq vals v : ℚ) := by exact_mod_cast hce
  have hleQ : (countLt vals v : ℚ) + (countEq vals v : ℚ) ≤ (vals.length : ℚ) := by
    exact_mod_cast hle
  constructor
  · apply div_pos _ hn
    have h0 : (0 : ℚ) ≤ (countLt vals v : ℚ) := by positivity
    linarith
  · rw [fracRank, div_le_one hn]
    linarith

theorem fracRank_mono (vals : List ℚ) {v w : ℚ} (hwv : w < v) :
    fracRank vals w ≤ fracRank vals v := by
  rcases Nat.eq_zero_or_pos vals.length with h0 | hnp
  · rw [fracRank, fracRank, h0]
    simp
  · have hn : (0 : ℚ) < vals.length := by exact_mod_cast hnp
    have hkey : countLt vals w + countEq vals w ≤ countLt vals v := by
      rw [countLt_add_countEq, countLt]
      exact length_filter_mono vals (fun x _ hx => by
        rw [decide_eq_true_eq] at hx
        exact decide_eq_true (lt_of_le_of_lt hx hwv))
    have hkeyQ : (countLt vals w : ℚ) + (countEq vals w : ℚ) ≤ (countLt vals v : ℚ) := by
      exact_mod_cast hkey
    have hcew : (0 : ℚ) ≤ (countEq vals w : ℚ) := by positivity
    have hcev : (0 : ℚ) ≤ (countEq vals v : ℚ) := by positivity
    rw [fracRank, fracRank, div_le_div_iff_of_pos_right hn]
    linarith

theorem sum_range_shift (m c : ℕ) :
    ((List.range m).map (fun j : ℕ => ((c : ℚ) + j + 1))).sum
      = (m : ℚ) * c + m * (m + 1) / 2 := by
  induction m with
  | zero => simp
  | succ k ih =>
    rw [List.range_succ, List.map_append, List.sum_append, ih, List.map_singleton,
      List.sum_singleton]
    push_cast
    ring

theorem fracRank_average_rank {vals : List ℚ} {v : ℚ} (hv : v ∈ vals) :
    fracRank vals v * (vals.length : ℚ) =
      (((List.range (countEq vals v)).map
        (fun j : ℕ => ((countLt vals v : ℚ) + j + 1))).sum) / (countEq vals v : ℚ) := by
  have hnp : 0 < vals.length := List.length_pos_of_mem hv
  have hn : ((vals.length : ℚ)) ≠ 0 := by
    exact_mod_cast hnp.ne'
  have hce : 1 ≤ countEq vals v := countEq_pos_of_mem hv
  have hceQ : ((countEq vals v : ℚ)) ≠ 0 := by
    have : (0 : ℚ) < (countEq vals v : ℚ) := by exact_mod_cast hce
    exact this.ne'
  rw [sum_range_shift, fracRank]
  field_simp
  ring

/-- C9:  The percentile rank reported for every matched ticker is the
fractional (average-rank) percentile of its metric value over the full
surviving universe (the whole post-dropna series, not just the matched
subset): it equals `(#less + (#equal + 1)/2) / n`, which times `n` is the
average of the ordinal positions the tied group occupies; it lies in
(0, 1] ⊆ [0, 1]; tied values share one rank; and the rank is monotone in
the metric value. -/
theorem c9_percentile_rank (rule : Rule) (threshold : ℚ) (col : MetricCol) :
    (∀ r ∈ statResults rule threshold col,
      r.percentileRank = fracRank ((dropna col).map (·.2)) r.metricValue ∧
      (0 < r.percentileRank ∧ r.percentileRank ≤ 1) ∧
      r.percentileRank * (((dropna col).map (·.2)).length : ℚ) =
        (((List.range (countEq ((dropna col).map (·.2)) r.metricValue)).map
          (fun j : ℕ => ((countLt ((dropna col).map (·.2)) r.metricValue : ℚ) + j + 1))).sum)
          / (countEq ((dropna col).map (·.2)) r.metricValue : ℚ)) ∧
    (∀ r ∈ statResults rule threshold col, ∀ s ∈ statResults rule threshold col,
      r.metricValue = s.metricValue → r.percentileRank = s.percentileRank) ∧
    (∀ a b : ℚ, b < a →
      fracRank ((dropna col).map (·.2)) b ≤ fracRank ((dropna col).map (·.2)) a) := by
  have hsub : ∀ p ∈ applyRule rule threshold (dropna col), p ∈ dropna col := by
    intro p hp
    cases rule <;> exact (List.mem_filter.mp hp).1
  have hrank : ∀ r ∈ statResults rule threshold col,
      r.percentileRank = fracRank ((dropna col).map (·.2)) r.metricValue ∧
      r.metricValue ∈ (dropna col).map (·.2) := by
    intro r hr
    rw [statResults] at hr
    obtain ⟨p, hp, rfl⟩ := List.mem_map.mp hr
    exact ⟨rfl, List.mem_map.mpr ⟨p, hsub p hp, rfl⟩⟩
  refine ⟨?_, ?_, ?_⟩
  · intro r hr
    obtain ⟨heq, hmem⟩ := hrank r hr
    refine ⟨heq, ?_, ?_⟩
    · rw [heq]
      exact fracRank_pos_le_one hmem
    · rw [heq]
      exact fracRank_average_rank hmem
  · intro r hr s hs hval
    rw [(hrank r hr).1, (hrank s hs).1, hval]
  · intro a b hba
    exact fracRank_mono _ hba

/-- Witness for `c9_percentile_rank`: the matched ticker `B` on a concrete
two-ticker metric column. -/
theorem c9_percentile_rank_witness :
    c9row ∈ statResults Rule.greater_than 0 c9col ∧
    (c9row.percentileRank = fracRank ((dropna c9col).map (·.2)) c9row.metricValue ∧
      (0 < c9row.percentileRank ∧ c9row.percentileRank ≤ 1) ∧
      c9row.percentileRank * (((dropna c9col).map (·.2)).length : ℚ) =
        (((List.range (countEq ((dropna c9col).map (·.2)) c9row.metricValue)).map
          (fun j : ℕ => ((countLt ((dropna c9col).map (·.2)) c9row.metricValue : ℚ)
            + j + 1))).sum)
          / (countEq ((dropna c9col).map (·.2)) c9row.metricValue : ℚ)) := by
  have hmem : c9row ∈ statResults Rule.greater_than 0 c9col := by
    rw [statResults, c9col, c9row]
    have hd : dropna [("A", some 1), ("B", some 2)] = [("A", 1), ("B", 2)] := rfl
    rw [hd, applyRule]
    rw [show ([("A", (1 : ℚ)), ("B", 2)].filter (fun p => decide ((0 : ℚ) < p.2)))
        = [("A", 1), ("B", 2)] by
      rw [List.filter_cons, List.filter_cons, List.filter_nil,
        if_pos (decide_eq_true (by norm_num : (0 : ℚ) < 1)),
        if_pos (decide_eq_true (by norm_num : (0 : ℚ) < 2))]]
    simp only [List.map_cons, List.map_nil]
    exact List.mem_cons_of_mem _ (List.mem_cons_self _ _)
  exact ⟨hmem, (c9_percentile_rank Rule.greater_than 0 c9col).1 _ hmem⟩

/-! ## C8: top/bottom percentile disjointness -/

theorem getD_of_lt_length (l : List ℚ) (i : ℕ) (d : ℚ) (h : i < l.length) :
    l.getD i d = l[i] := by
  rw [List.getD_eq_getElem?_getD, List.getElem?_eq_getElem h]
  rfl

theorem getD_of_length_le (l : List ℚ) (i : ℕ) (d : ℚ) (h : l.length ≤ i) :
    l.getD i d = d := by
  rw [List.getD_eq_getElem?_getD, List.getElem?_eq_none h]
  rfl

theorem sorted_nodup_getD_lt {s : List ℚ} (hs : s.Sorted (· ≤ ·)) (hn : s.Nodup)
    {i j : ℕ} (hij : i < j) (hj : j < s.length) :
    s.getD i 0 < s.getD j 0 := by
  have hi : i < s.length := lt_trans hij hj
  have hle := List.pairwise_iff_getElem.mp hs i j hi hj hij
  have hne := List.pairwise_iff_getElem.mp hn i j hi hj hij
  rw [getD_of_lt_length _ _ _ hi, getD_of_lt_length _ _ _ hj]
  exact lt_of_le_of_ne hle hne

theorem sorted_getD_le {s : List ℚ} (hs : s.Sorted (· ≤ ·))
    {i j : ℕ} (hij : i ≤ j) (hj : j < s.length) :
    s.getD i 0 ≤ s.getD j 0 := by
  rcases eq_or_lt_of_le hij with rfl | h
  · exact le_refl _
  · have hi : i < s.length := lt_trans h hj
    have hle := List.pairwise_iff_getElem.mp hs i j hi hj h
    rw [getD_of_lt_length _ _ _ hi, getD_of_lt_length _ _ _ hj]
    exact hle

theorem toNat_cast_rat {z : ℤ} (h : 0 ≤ z) : ((z.toNat : ℕ) : ℚ) = (z : ℚ) := by
  exact_mod_cast Int.toNat_of_nonneg h

/-- Linear interpolation between the order statistics of a duplicate-free
sorted list is strictly increasing in the fractional position. -/
theorem interp_strict_mono {s : List ℚ} (hsort : s.Sorted (· ≤ ·)) (hsnd : s.Nodup)
    (hslen : 2 ≤ s.length) {kp kq : ℚ} (hkp0 : 0 ≤ kp) (hkq1 : kq ≤ (s.length : ℚ) - 1)
    (hkpq : kp < kq) :
    s.getD (⌊kp⌋).toNat 0 + (kp - (((⌊kp⌋).toNat : ℕ) : ℚ)) *
        (s.getD ((⌊kp⌋).toNat + 1) (s.getD (⌊kp⌋).toNat 0) - s.getD (⌊kp⌋).toNat 0)
      < s.getD (⌊kq⌋).toNat 0 + (kq - (((⌊kq⌋).toNat : ℕ) : ℚ)) *
        (s.getD ((⌊kq⌋).toNat + 1) (s.getD (⌊kq⌋).toNat 0) - s.getD (⌊kq⌋).toNat 0) := by
  have hkq0 : 0 ≤ kq := le_trans hkp0 hkpq.le
  set ip : ℕ := (⌊kp⌋).toNat with hip_def
  set iq : ℕ := (⌊kq⌋).toNat with hiq_def
  have hipQ : (ip : ℚ) ≤ kp := by
    rw [hip_def, toNat_cast_rat (Int.floor_nonneg.mpr hkp0)]
    exact Int.floor_le kp
  have hip1 : kp < (ip : ℚ) + 1 := by
    rw [hip_def, toNat_cast_rat (Int.floor_nonneg.mpr hkp0)]
    exact Int.lt_floor_add_one kp
  have hiqQ : (iq : ℚ) ≤ kq := by
    rw [hiq_def, toNat_cast_rat (Int.floor_nonneg.mpr hkq0)]
    exact Int.floor_le kq
  have hiple : ip ≤ iq := by
    rw [hip_def, hiq_def]
    exact Int.toNat_le_toNat (Int.floor_le_floor hkpq.le)
  have hiqle : iq ≤ s.length - 1 := by
    have h1 : (iq : ℚ) ≤ (s.length : ℚ) - 1 := le_trans hiqQ hkq1
    have h2 : (iq : ℚ) ≤ ((s.length - 1 : ℕ) : ℚ) := by
      rwa [Nat.cast_sub (by omega), Nat.cast_one]
    exact_mod_cast h2
  rcases eq_or_lt_of_le hiple with heq | hlt
  · -- same interpolation cell
    rw [← heq]
    rcases Nat.lt_or_ge (ip + 1) s.length with hin | hout
    · have hd : s.getD ip 0 < s.getD (ip + 1) 0 :=
        sorted_nodup_getD_lt hsort hsnd (Nat.lt_succ_self ip) hin
      have hdef : s.getD (ip + 1) (s.getD ip 0) = s.getD (ip + 1) 0 := by
        rw [getD_of_lt_length _ _ _ hin, getD_of_lt_length _ _ _ hin]
      rw [hdef]
      have hfr : kp - (ip : ℚ) < kq - (ip : ℚ) := by linarith
      have hdp : 0 < s.getD (ip + 1) 0 - s.getD ip 0 := by linarith
      nlinarith [mul_lt_mul_of_pos_right hfr hdp]
    · -- ip = iq = length - 1 forces kp ≥ kq, impossible
      exfalso
      have hip_eq : ip = s.length - 1 := by omega
      have h2c : ((s.length - 1 : ℕ) : ℚ) = (s.length : ℚ) - 1 := by
        rw [Nat.cast_sub (by omega), Nat.cast_one]
      have h1 : (s.length : ℚ) - 1 ≤ kp := by
        rw [← h2c, ← hip_eq]
        exact hipQ
      linarith
  · -- distinct cells: value at kp stays below s[ip+1] ≤ s[iq] ≤ value at kq
    have hiq_lt_n : iq < s.length := by omega
    have hip1_lt_n : ip + 1 < s.length := by omega
    have hdp : 0 < s.getD (ip + 1) 0 - s.getD ip 0 := by
      have := sorted_nodup_getD_lt hsort hsnd (Nat.lt_succ_self ip) hip1_lt_n
      linarith
    have hdefp : s.getD (ip + 1) (s.getD ip 0) = s.getD (ip + 1) 0 := by
      rw [getD_of_lt_length _ _ _ hip1_lt_n, getD_of_lt_length _ _ _ hip1_lt_n]
    have hfp1 : kp - (ip : ℚ) < 1 := by linarith
    have hQp : s.getD ip 0 + (kp - (ip : ℚ)) * (s.getD (ip + 1) (s.getD ip 0) - s.getD ip 0)
        < s.getD (ip + 1) 0 := by
      rw [hdefp]
      nlinarith [mul_lt_mul_of_pos_right hfp1 hdp]
    have hmid : s.getD (ip + 1) 0 ≤ s.getD iq 0 :=
      sorted_getD_le hsort hlt hiq_lt_n
    have hfq0 : 0 ≤ kq - (iq : ℚ) := by linarith
    have hdq : 0 ≤ s.getD (iq + 1) (s.getD iq 0) - s.getD iq 0 := by
      rcases Nat.lt_or_ge (iq + 1) s.length with hin | hout
      · have hdef : s.getD (iq + 1) (s.getD iq 0) = s.getD (iq + 1) 0 := by
          rw [getD_of_lt_length _ _ _ hin, getD_of_lt_length _ _ _ hin]
        rw [hdef]
        have := sorted_getD_le hsort (Nat.le_succ iq) hin
        linarith
      · rw [getD_of_length_le _ _ _ hout]
        linarith
    have hQq : s.getD iq 0
        ≤ s.getD iq 0 + (kq - (iq : ℚ)) * (s.getD (iq + 1) (s.getD iq 0) - s.getD iq 0) := by
      nlinarith [mul_nonneg hfq0 hdq]
    linarith

/-- pandas linear-interpolation quantiles of a duplicate-free series of at
least two values are strictly increasing in the probability level. -/
theorem quantile_strict_mono {vals : List ℚ} (hnd : vals.Nodup) (h2 : 2 ≤ vals.length)
    {p q : ℚ} (hp0 : 0 ≤ p) (hq1 : q ≤ 1) (hpq : p < q) :
    quantile vals p < quantile vals q := by
  have hperm : (vals.insertionSort (· ≤ ·)).Perm vals := List.perm_insertionSort (· ≤ ·) vals
  have hsort : (vals.insertionSort (· ≤ ·)).Sorted (· ≤ ·) :=
    List.sorted_insertionSort (· ≤ ·) vals
  have hsnd : (vals.insertionSort (· ≤ ·)).Nodup := hperm.nodup_iff.mpr hnd
  have hslen : 2 ≤ (vals.insertionSort (· ≤ ·)).length := by
    rw [hperm.length_eq]
    exact h2
  have hn1 : (1 : ℚ) ≤ ((vals.insertionSort (· ≤ ·)).length : ℚ) - 1 := by
    have : (2 : ℚ) ≤ ((vals.insertionSort (· ≤ ·)).length : ℚ) := by exact_mod_cast hslen
    linarith
  have hkp0 : 0 ≤ p * (((vals.insertionSort (· ≤ ·)).length : ℚ) - 1) :=
    mul_nonneg hp0 (by linarith)
  have hkq1 : q * (((vals.insertionSort (· ≤ ·)).length : ℚ) - 1)
      ≤ ((vals.insertionSort (· ≤ ·)).length : ℚ) - 1 := by
    calc q * (((vals.insertionSort (· ≤ ·)).length : ℚ) - 1)
        ≤ 1 * (((vals.insertionSort (· ≤ ·)).length : ℚ) - 1) :=
          mul_le_mul_of_nonneg_right hq1 (by linarith)
      _ = ((vals.insertionSort (· ≤ ·)).length : ℚ) - 1 := one_mul _
  have hkpq : p * (((vals.insertionSort (· ≤ ·)).length : ℚ) - 1)
      < q * (((vals.insertionSort (· ≤ ·)).length : ℚ) - 1) :=
    mul_lt_mul_of_pos_right hpq (by linarith)
  exact interp_strict_mono hsort hsnd hslen hkp0 hkq1 hkpq

/-- Unfolding of `quantile` into its interpolation form. -/
theorem quantile_def (vals : List ℚ) (p : ℚ) :
    quantile vals p =
      (vals.insertionSort (· ≤ ·)).getD
          ((⌊p * (((vals.insertionSort (· ≤ ·)).length : ℚ) - 1)⌋).toNat) 0
        + (p * (((vals.insertionSort (· ≤ ·)).length : ℚ) - 1)
            - (((⌊p * (((vals.insertionSort (· ≤ ·)).length : ℚ) - 1)⌋).toNat : ℕ) : ℚ))
          * ((vals.insertionSort (· ≤ ·)).getD
                ((⌊p * (((vals.insertionSort (· ≤ ·)).length : ℚ) - 1)⌋).toNat + 1)
                ((vals.insertionSort (· ≤ ·)).getD
                  ((⌊p * (((vals.insertionSort (· ≤ ·)).length : ℚ) - 1)⌋).toNat) 0)
              - (vals.insertionSort (· ≤ ·)).getD
                  ((⌊p * (((vals.insertionSort (· ≤ ·)).length : ℚ) - 1)⌋).toNat) 0) := rfl

/-- Linear interpolation between the order statistics of a sorted list is
monotone (non-strictly) in the fractional position; no distinctness needed. -/
theorem interp_mono {s : List ℚ} (hsort : s.Sorted (· ≤ ·))
    (hslen : 2 ≤ s.length) {kp kq : ℚ} (hkp0 : 0 ≤ kp) (hkq1 : kq ≤ (s.length : ℚ) - 1)
    (hkpq : kp ≤ kq) :
    s.getD (⌊kp⌋).toNat 0 + (kp - (((⌊kp⌋).toNat : ℕ) : ℚ)) *
        (s.getD ((⌊kp⌋).toNat + 1) (s.getD (⌊kp⌋).toNat 0) - s.getD (⌊kp⌋).toNat 0)
      ≤ s.getD (⌊kq⌋).toNat 0 + (kq - (((⌊kq⌋).toNat : ℕ) : ℚ)) *
        (s.getD ((⌊kq⌋).toNat + 1) (s.getD (⌊kq⌋).toNat 0) - s.getD (⌊kq⌋).toNat 0) := by
  have hkq0 : 0 ≤ kq := le_trans hkp0 hkpq
  set ip : ℕ := (⌊kp⌋).toNat with hip_def
  set iq : ℕ := (⌊kq⌋).toNat with hiq_def
  have hipQ : (ip : ℚ) ≤ kp := by
    rw [hip_def, toNat_cast_rat (Int.floor_nonneg.mpr hkp0)]
    exact Int.floor_le kp
  have hip1 : kp < (ip : ℚ) + 1 := by
    rw [hip_def, toNat_cast_rat (Int.floor_nonneg.mpr hkp0)]
    exact Int.lt_floor_add_one kp
  have hiqQ : (iq : ℚ) ≤ kq := by
    rw [hiq_def, toNat_cast_rat (Int.floor_nonneg.mpr hkq0)]
    exact Int.floor_le kq
  have hiple : ip ≤ iq := by
    rw [hip_def, hiq_def]
    exact Int.toNat_le_toNat (Int.floor_le_floor hkpq)
  have hiqle : iq ≤ s.length - 1 := by
    have h1 : (iq : ℚ) ≤ (s.length : ℚ) - 1 := le_trans hiqQ hkq1
    have h2 : (iq : ℚ) ≤ ((s.length - 1 : ℕ) : ℚ) := by
      rwa [Nat.cast_sub (by omega), Nat.cast_one]
    exact_mod_cast h2
  rcases eq_or_lt_of_le hiple with heq | hlt
  · -- same interpolation cell
    rw [← heq]
    have hfr : kp - (ip : ℚ) ≤ kq - (ip : ℚ) := by linarith
    have hd : 0 ≤ s.getD (ip + 1) (s.getD ip 0) - s.getD ip 0 := by
      rcases Nat.lt_or_ge (ip + 1) s.length with hin | hout
      · have hdef : s.getD (ip + 1) (s.getD ip 0) = s.getD (ip + 1) 0 := by
          rw [getD_of_lt_length _ _ _ hin, getD_of_lt_length _ _ _ hin]
        rw [hdef]
        have := sorted_getD_le hsort (Nat.le_succ ip) hin
        linarith
      · rw [getD_of_length_le _ _ _ hout]
        linarith
    nlinarith [mul_le_mul_of_nonneg_right hfr hd]
  · -- distinct cells: value at kp stays at most s[ip+1] ≤ s[iq] ≤ value at kq
    have hiq_lt_n : iq < s.length := by omega
    have hip1_lt_n : ip + 1 < s.length := by omega
    have hdp : 0 ≤ s.getD (ip + 1) 0 - s.getD ip 0 := by
      have := sorted_getD_le hsort (Nat.le_succ ip) hip1_lt_n
      linarith
    have hdefp : s.getD (ip + 1) (s.getD ip 0) = s.getD (ip + 1) 0 := by
      rw [getD_of_lt_length _ _ _ hip1_lt_n, getD_of_lt_length _ _ _ hip1_lt_n]
    have hfp1 : kp - (ip : ℚ) ≤ 1 := by linarith
    have hQp : s.getD ip 0 + (kp - (ip : ℚ)) * (s.getD (ip + 1) (s.getD ip 0) - s.getD ip 0)
        ≤ s.getD (ip + 1) 0 := by
      rw [hdefp]
      nlinarith [mul_le_mul_of_nonneg_right hfp1 hdp]
    have hmid : s.getD (ip + 1) 0 ≤ s.getD iq 0 :=
      sorted_getD_le hsort hlt hiq_lt_n
    have hfq0 : 0 ≤ kq - (iq : ℚ) := by linarith
    have hdq : 0 ≤ s.getD (iq + 1) (s.getD iq 0) - s.getD iq 0 := by
      rcases Nat.lt_or_ge (iq + 1) s.length with hin | hout
      · have hdef : s.getD (iq + 1) (s.getD iq 0) = s.getD (iq + 1) 0 := by
          rw [getD_of_lt_length _ _ _ hin, getD_of_lt_length _ _ _ hin]
        rw [hdef]
        have := sorted_getD_le hsort (Nat.le_succ iq) hin
        linarith
      · rw [getD_of_length_le _ _ _ hout]
        linarith
    have hQq : s.getD iq 0
        ≤ s.getD iq 0 + (kq - (iq : ℚ)) * (s.getD (iq + 1) (s.getD iq 0) - s.getD iq 0) := by
      nlinarith [mul_nonneg hfq0 hdq]
    linarith

/-- If linear interpolation at two distinct fractional positions of a sorted
list of length at least 2 gives the same value, then two adjacent entries of
the list are equal, both carrying that common value. -/
theorem interp_eq_dup {s : List ℚ} (hsort : s.Sorted (· ≤ ·))
    (hslen : 2 ≤ s.length) {kp kq : ℚ} (hkp0 : 0 ≤ kp) (hkq1 : kq ≤ (s.length : ℚ) - 1)
    (hkpq : kp < kq)
    (heq : s.getD (⌊kp⌋).toNat 0 + (kp - (((⌊kp⌋).toNat : ℕ) : ℚ)) *
        (s.getD ((⌊kp⌋).toNat + 1) (s.getD (⌊kp⌋).toNat 0) - s.getD (⌊kp⌋).toNat 0)
      = s.getD (⌊kq⌋).toNat 0 + (kq - (((⌊kq⌋).toNat : ℕ) : ℚ)) *
        (s.getD ((⌊kq⌋).toNat + 1) (s.getD (⌊kq⌋).toNat 0) - s.getD (⌊kq⌋).toNat 0)) :
    ∃ i j : ℕ, i < j ∧ j < s.length ∧ s.getD i 0 = s.getD j 0 ∧
      s.getD j 0 = s.getD (⌊kp⌋).toNat 0 + (kp - (((⌊kp⌋).toNat : ℕ) : ℚ)) *
        (s.getD ((⌊kp⌋).toNat + 1) (s.getD (⌊kp⌋).toNat 0) - s.getD (⌊kp⌋).toNat 0) := by
  have hkq0 : 0 ≤ kq := le_trans hkp0 hkpq.le
  set ip : ℕ := (⌊kp⌋).toNat with hip_def
  set iq : ℕ := (⌊kq⌋).toNat with hiq_def
  have hipQ : (ip : ℚ) ≤ kp := by
    rw [hip_def, toNat_cast_rat (Int.floor_nonneg.mpr hkp0)]
    exact Int.floor_le kp
  have hip1 : kp < (ip : ℚ) + 1 := by
    rw [hip_def, toNat_cast_rat (Int.floor_nonneg.mpr hkp0)]
    exact Int.lt_floor_add_one kp
  have hiqQ : (iq : ℚ) ≤ kq := by
    rw [hiq_def, toNat_cast_rat (Int.floor_nonneg.mpr hkq0)]
    exact Int.floor_le kq
  have hiple : ip ≤ iq := by
    rw [hip_def, hiq_def]
    exact Int.toNat_le_toNat (Int.floor_le_floor hkpq.le)
  have hiqle : iq ≤ s.length - 1 := by
    have h1 : (iq : ℚ) ≤ (s.length : ℚ) - 1 := le_trans hiqQ hkq1
    have h2 : (iq : ℚ) ≤ ((s.length - 1 : ℕ) : ℚ) := by
      rwa [Nat.cast_sub (by omega), Nat.cast_one]
    exact_mod_cast h2
  rcases eq_or_lt_of_le hiple with hcell | hlt
  · -- same interpolation cell: the slope must vanish
    rcases Nat.lt_or_ge (ip + 1) s.length with hin | hout
    · rw [← hcell] at heq
      have hmul : (kq - kp) * (s.getD (ip + 1) (s.getD ip 0) - s.getD ip 0) = 0 := by
        linear_combination -heq
      have hd0 : s.getD (ip + 1) (s.getD ip 0) - s.getD ip 0 = 0 := by
        rcases mul_eq_zero.mp hmul with h | h
        · exfalso
          have : kq - kp ≠ 0 := by
            have : 0 < kq - kp := by linarith
            linarith
          exact this h
        · exact h
      have hdef : s.getD (ip + 1) (s.getD ip 0) = s.getD (ip + 1) 0 := by
        rw [getD_of_lt_length _ _ _ hin, getD_of_lt_length _ _ _ hin]
      refine ⟨ip, ip + 1, Nat.lt_succ_self ip, hin, ?_, ?_⟩
      · linear_combination hdef - hd0
      · linear_combination (-1 : ℚ) * hdef + (1 - (kp - (ip : ℚ))) * hd0
    · -- ip = iq = length - 1 forces kp ≥ kq, impossible
      exfalso
      have hip_eq : ip = s.length - 1 := by omega
      have h2c : ((s.length - 1 : ℕ) : ℚ) = (s.length : ℚ) - 1 := by
        rw [Nat.cast_sub (by omega), Nat.cast_one]
      have h1 : (s.length : ℚ) - 1 ≤ kp := by
        rw [← h2c, ← hip_eq]
        exact hipQ
      linarith
  · -- distinct cells: s[ip+1] and s[iq] are squeezed onto the common value
    have hiq_lt_n : iq < s.length := by omega
    have hip1_lt_n : ip + 1 < s.length := by omega
    have hdefp : s.getD (ip + 1) (s.getD ip 0) = s.getD (ip + 1) 0 := by
      rw [getD_of_lt_length _ _ _ hip1_lt_n, getD_of_lt_length _ _ _ hip1_lt_n]
    have hdp : 0 ≤ s.getD (ip + 1) 0 - s.getD ip 0 := by
      have := sorted_getD_le hsort (Nat.le_succ ip) hip1_lt_n
      linarith
    have hfp1 : kp - (ip : ℚ) < 1 := by linarith
    have hfp0 : 0 ≤ kp - (ip : ℚ) := by linarith
    have hQp : s.getD ip 0 + (kp - (ip : ℚ)) * (s.getD (ip + 1) (s.getD ip 0) - s.getD ip 0)
        ≤ s.getD (ip + 1) 0 := by
      rw [hdefp]
      nlinarith [mul_le_mul_of_nonneg_right hfp1.le hdp]
    have hmid : s.getD (ip + 1) 0 ≤ s.getD iq 0 :=
      sorted_getD_le hsort hlt hiq_lt_n
    have hfq0 : 0 ≤ kq - (iq : ℚ) := by linarith
    have hdq : 0 ≤ s.getD (iq + 1) (s.getD iq 0) - s.getD iq 0 := by
      rcases Nat.lt_or_ge (iq + 1) s.length with hin | hout
      · have hdef : s.getD (iq + 1) (s.getD iq 0) = s.getD (iq + 1) 0 := by
          rw [getD_of_lt_length _ _ _ hin, getD_of_lt_length _ _ _ hin]
        rw [hdef]
        have := sorted_getD_le hsort (Nat.le_succ iq) hin
        linarith
      · rw [getD_of_length_le _ _ _ hout]
        linarith
    have hQq : s.getD iq 0
        ≤ s.getD iq 0 + (kq - (iq : ℚ)) * (s.getD (iq + 1) (s.getD iq 0) - s.getD iq 0) := by
      nlinarith [mul_nonneg hfq0 hdq]
    have hA : s.getD (ip + 1) 0
        = s.getD ip 0 + (kp - (ip : ℚ)) * (s.getD (ip + 1) (s.getD ip 0) - s.getD ip 0) := by
      linarith
    have hB : s.getD iq 0
        = s.getD ip 0 + (kp - (ip : ℚ)) * (s.getD (ip + 1) (s.getD ip 0) - s.getD ip 0) := by
      linarith
    rcases Nat.lt_or_ge (ip + 1) iq with hlt2 | hge2
    · exact ⟨ip + 1, iq, hlt2, hiq_lt_n, by linarith, hB⟩
    · have hiq_eq : iq = ip + 1 := by omega
      have hmul : (1 - (kp - (ip : ℚ)))
          * (s.getD (ip + 1) (s.getD ip 0) - s.getD ip 0) = 0 := by
        linear_combination hdefp + hA
      have hd0 : s.getD (ip + 1) (s.getD ip 0) - s.getD ip 0 = 0 := by
        rcases mul_eq_zero.mp hmul with h | h
        · exfalso
          have hne : 1 - (kp - (ip : ℚ)) ≠ 0 := by
            have : 0 < 1 - (kp - (ip : ℚ)) := by linarith
            linarith
          exact hne h
        · exact h
      refine ⟨ip, ip + 1, Nat.lt_succ_self ip, hip1_lt_n, ?_, ?_⟩
      · linear_combination hdefp - hd0
      · rw [hiq_eq] at hB
        exact hB

/-- Permutations preserve the multiplicity count. -/
theorem countEq_perm {l₁ l₂ : List ℚ} (h : l₁.Perm l₂) (v : ℚ) :
    countEq l₁ v = countEq l₂ v := by
  rw [countEq, countEq]
  exact (h.filter _).length_eq

/-- Two equal entries at distinct positions give multiplicity at least 2. -/
theorem countEq_two_of_dup {s : List ℚ} {i j : ℕ} (hij : i < j) (hj : j < s.length)
    (hval : s.getD i 0 = s.getD j 0) : 2 ≤ countEq s (s.getD j 0) := by
  have hi : i < s.length := lt_trans hij hj
  have hgi : s[i]? = some (s.getD j 0) := by
    rw [List.getElem?_eq_getElem hi]
    exact congrArg some ((getD_of_lt_length s i 0 hi).symm.trans hval)
  have hgj : s[j]? = some (s.getD j 0) := by
    rw [List.getElem?_eq_getElem hj]
    exact congrArg some (getD_of_lt_length s j 0 hj).symm
  have hmem1 : s.getD j 0 ∈ s.take j := by
    have h : (s.take j)[i]? = some (s.getD j 0) := by
      rw [List.getElem?_take_of_lt hij]
      exact hgi
    exact List.getElem?_mem h
  have hmem2 : s.getD j 0 ∈ s.drop j := by
    have h : (s.drop j)[0]? = some (s.getD j 0) := by
      rw [List.getElem?_drop]
      simpa using hgj
    exact List.getElem?_mem h
  have h1 : 1 ≤ ((s.take j).filter (fun x => decide (x = s.getD j 0))).length :=
    List.length_pos_of_mem (List.mem_filter.mpr ⟨hmem1, by simp⟩)
  have h2 : 1 ≤ ((s.drop j).filter (fun x => decide (x = s.getD j 0))).length :=
    List.length_pos_of_mem (List.mem_filter.mpr ⟨hmem2, by simp⟩)
  have hsplit : ∀ p : ℚ → Bool,
      (s.filter p).length = ((s.take j).filter p).length + ((s.drop j).filter p).length := by
    intro p
    conv_lhs => rw [← List.take_append_drop j s]
    rw [List.filter_append, List.length_append]
  have hc : countEq s (s.getD j 0)
      = ((s.take j).filter (fun x => decide (x = s.getD j 0))).length
        + ((s.drop j).filter (fun x => decide (x = s.getD j 0))).length := by
    rw [countEq]
    exact hsplit _
  omega

/-- C8, amended:  On a surviving universe of at least two tickers with no
ties spanning both cutoffs — no metric value occurring at least twice that
is ≥ the 0.90 quantile cutoff and ≤ the 0.10 quantile cutoff (true in
particular of any injective, continuously distributed metric) — the
`top_percentile(0.10)` matches (values ≥ the 0.90 quantile) and the
`bottom_percentile(0.10)` matches (values ≤ the 0.10 quantile) are
disjoint: a common member would force the two interpolated cutoffs to
coincide, which on a series of at least two values forces a tie spanning
both cutoffs. -/
theorem c8_top_bottom_disjoint (series : List (String × ℚ)) (h2 : 2 ≤ series.length)
    (hnotie : ¬ ∃ v : ℚ, 2 ≤ countEq (series.map (·.2)) v ∧
      quantile (series.map (·.2)) (1 - 1 / 10) ≤ v ∧
      v ≤ quantile (series.map (·.2)) (1 / 10)) :
    ∀ t ∈ topPercentileMatches (1 / 10) series,
      t ∉ bottomPercentileMatches (1 / 10) series := by
  intro t htop hbot
  rw [topPercentileMatches] at htop
  rw [bottomPercentileMatches] at hbot
  have h9 : quantile (series.map (·.2)) (1 - 1 / 10) ≤ t.2 := by
    have h := (List.mem_filter.mp htop).2
    rwa [decide_eq_true_eq] at h
  have h1 : t.2 ≤ quantile (series.map (·.2)) (1 / 10) := by
    have h := (List.mem_filter.mp hbot).2
    rwa [decide_eq_true_eq] at h
  apply hnotie
  refine ⟨t.2, ?_, h9, h1⟩
  have hperm : ((series.map (·.2)).insertionSort (· ≤ ·)).Perm (series.map (·.2)) :=
    List.perm_insertionSort (· ≤ ·) (series.map (·.2))
  have hsort : ((series.map (·.2)).insertionSort (· ≤ ·)).Sorted (· ≤ ·) :=
    List.sorted_insertionSort (· ≤ ·) (series.map (·.2))
  have hslen : 2 ≤ ((series.map (·.2)).insertionSort (· ≤ ·)).length := by
    rw [hperm.length_eq, List.length_map]
    exact h2
  have hn1 : (1 : ℚ) ≤ (((series.map (·.2)).insertionSort (· ≤ ·)).length : ℚ) - 1 := by
    have : (2 : ℚ) ≤ (((series.map (·.2)).insertionSort (· ≤ ·)).length : ℚ) := by
      exact_mod_cast hslen
    linarith
  have hkp0 : 0 ≤ (1 / 10 : ℚ)
      * ((((series.map (·.2)).insertionSort (· ≤ ·)).length : ℚ) - 1) := by
    nlinarith
  have hkq1 : (1 - 1 / 10 : ℚ)
      * ((((series.map (·.2)).insertionSort (· ≤ ·)).length : ℚ) - 1)
      ≤ (((series.map (·.2)).insertionSort (· ≤ ·)).length : ℚ) - 1 := by
    nlinarith
  have hkpq : (1 / 10 : ℚ)
      * ((((series.map (·.2)).insertionSort (· ≤ ·)).length : ℚ) - 1)
      < (1 - 1 / 10 : ℚ)
      * ((((series.map (·.2)).insertionSort (· ≤ ·)).length : ℚ) - 1) := by
    nlinarith
  have hq_le : quantile (series.map (·.2)) (1 / 10)
      ≤ quantile (series.map (·.2)) (1 - 1 / 10) := by
    rw [quantile_def, quantile_def]
    exact interp_mono hsort hslen hkp0 hkq1 hkpq.le
  have hceq : quantile (series.map (·.2)) (1 / 10)
      = quantile (series.map (·.2)) (1 - 1 / 10) :=
    le_antisymm hq_le (le_trans h9 h1)
  have hteq : t.2 = quantile (series.map (·.2)) (1 / 10) := by
    have hge : quantile (series.map (·.2)) (1 / 10) ≤ t.2 := by
      rw [hceq]
      exact h9
    exact le_antisymm h1 hge
  obtain ⟨i, j, hij, hj, hvij, hvj⟩ :=
    interp_eq_dup hsort hslen hkp0 hkq1 hkpq (by
      rw [← quantile_def, ← quantile_def]
      exact hceq)
  have hcnt : 2 ≤ countEq ((series.map (·.2)).insertionSort (· ≤ ·))
      (((series.map (·.2)).insertionSort (· ≤ ·)).getD j 0) :=
    countEq_two_of_dup hij hj hvij
  have hvt : (((series.map (·.2)).insertionSort (· ≤ ·)).getD j 0) = t.2 := by
    rw [hvj, ← quantile_def]
    exact hteq.symm
  rw [← hvt, ← countEq_perm hperm]
  exact hcnt

/-- C8, counterexample:  On the singleton surviving universe
{(\"A\", 5)} — an injective metric, hence free of ties spanning the
cutoffs — every quantile equals 5, so ticker A is matched by
`top_percentile(0.10)` (5 ≥ 5) and by `bottom_percentile(0.10)` (5 ≤ 5):
the two ticker sets are not disjoint. -/
theorem c8_singleton_in_both :
    topPercentileMatches (1 / 10) [("A", (5 : ℚ))] = [("A", 5)] ∧
    bottomPercentileMatches (1 / 10) [("A", (5 : ℚ))] = [("A", 5)] := by
  have hq : ∀ r : ℚ, quantile [(5 : ℚ)] r = 5 := by
    intro r
    show [(5 : ℚ)].getD ((⌊r * ((((1 : ℕ) : ℚ)) - 1)⌋).toNat) 0
        + (r * ((((1 : ℕ) : ℚ)) - 1)
            - (((⌊r * ((((1 : ℕ) : ℚ)) - 1)⌋).toNat : ℕ) : ℚ))
          * ([(5 : ℚ)].getD ((⌊r * ((((1 : ℕ) : ℚ)) - 1)⌋).toNat + 1)
              ([(5 : ℚ)].getD ((⌊r * ((((1 : ℕ) : ℚ)) - 1)⌋).toNat) 0)
            - [(5 : ℚ)].getD ((⌊r * ((((1 : ℕ) : ℚ)) - 1)⌋).toNat) 0) = 5
    have hk : r * ((((1 : ℕ) : ℚ)) - 1) = 0 := by norm_num
    rw [hk, Int.floor_zero, Int.toNat_zero]
    norm_num [List.getD]
  constructor
  · rw [topPercentileMatches]
    have hm : ([("A", (5 : ℚ))].map (·.2)) = [(5 : ℚ)] := rfl
    rw [hm, hq (1 - 1 / 10), List.filter_cons, List.filter_nil,
      if_pos (decide_eq_true (le_refl (5 : ℚ)))]
  · rw [bottomPercentileMatches]
    have hm : ([("A", (5 : ℚ))].map (·.2)) = [(5 : ℚ)] := rfl
    rw [hm, hq (1 / 10), List.filter_cons, List.filter_nil,
      if_pos (decide_eq_true (le_refl (5 : ℚ)))]

/-- Witness for `c8_top_bottom_disjoint` on the tie-bearing four-ticker
universe of `c8series` (values 1, 1, 5, 9): the 0.10 cutoff is 1 and the
0.90 cutoff is 39/5, so the tie at value 1 does not span both cutoffs. -/
theorem c8_top_bottom_disjoint_witness :
    (2 ≤ c8series.length ∧
      ¬ ∃ v : ℚ, 2 ≤ countEq (c8series.map (·.2)) v ∧
        quantile (c8series.map (·.2)) (1 - 1 / 10) ≤ v ∧
        v ≤ quantile (c8series.map (·.2)) (1 / 10)) ∧
    (∀ t ∈ topPercentileMatches (1 / 10) c8series,
      t ∉ bottomPercentileMatches (1 / 10) c8series) := by
  have hm : c8series.map (·.2) = [(1 : ℚ), 1, 5, 9] := rfl
  have hsorted : ([(1 : ℚ), 1, 5, 9]).insertionSort (· ≤ ·) = [(1 : ℚ), 1, 5, 9] := by
    norm_num [List.insertionSort, List.orderedInsert]
  have hq1 : quantile [(1 : ℚ), 1, 5, 9] (1 / 10) = 1 := by
    rw [quantile_def, hsorted]
    have hk : (1 / 10 : ℚ) * ((([(1 : ℚ), 1, 5, 9]).length : ℚ) - 1) = 3 / 10 := by
      norm_num
    rw [hk]
    have hfl : ⌊(3 / 10 : ℚ)⌋ = 0 := by
      rw [Int.floor_eq_zero_iff, Set.mem_Ico]
      constructor <;> norm_num
    rw [hfl, Int.toNat_zero]
    norm_num [List.getD]
  have hq9 : quantile [(1 : ℚ), 1, 5, 9] (1 - 1 / 10) = 39 / 5 := by
    rw [quantile_def, hsorted]
    have hk : (1 - 1 / 10 : ℚ) * ((([(1 : ℚ), 1, 5, 9]).length : ℚ) - 1) = 27 / 10 := by
      norm_num
    rw [hk]
    have hfl : ⌊(27 / 10 : ℚ)⌋ = 2 := by
      rw [Int.floor_eq_iff]
      constructor <;> norm_num
    rw [hfl]
    rw [show ((2 : ℤ)).toNat = 2 from rfl]
    norm_num [List.getD]
  have h2 : 2 ≤ c8series.length := by decide
  have hnt : ¬ ∃ v : ℚ, 2 ≤ countEq (c8series.map (·.2)) v ∧
      quantile (c8series.map (·.2)) (1 - 1 / 10) ≤ v ∧
      v ≤ quantile (c8series.map (·.2)) (1 / 10) := by
    rintro ⟨v, hcv, h9v, h1v⟩
    rw [hm, hq9] at h9v
    rw [hm, hq1] at h1v
    linarith
  exact ⟨⟨h2, hnt⟩, c8_top_bottom_disjoint c8series h2 hnt⟩

end FactorFlow
